import Mathlib

/-!
# payfazz/go-middleware-injector: type-directed injection and chain control

A shallow embedding of `injector.go` (functions `getValuesMap`, `Use`, `Handler`,
`helper`) together with the properties of the signature inspector, of parameter
resolution and publication, and of the stop / after-next chain control.

Modelling conventions

* `reflect.Type` is `Ty`, compared by identity; the four package variables
  `responseType`, `requestType`, `stopChainType`, `afterNextType` are four distinct
  constants of it.  The only interface type is `http.ResponseWriter`.
* `reflect.Value` is `Val`; `Val.type` is `Value.Type()`, `Zero` is `reflect.Zero`.
* An `interface{}` argument is `Iface`: the nil interface, a value whose kind is not
  `reflect.Func`, or a function value.  A function value may be a nil function
  (`var f func(int)`) and may be variadic; a body that runs returns normally.
* What a function value does when it is called is a script (`Outcome`): the actions it
  performs in order (calling the `StopChain` argument, calling the `AfterNext` argument,
  any other observable effect such as writing the response) and the payloads it returns.
* The request-scoped key/value facility (`kv.Get` / `kv.Set` under the package's private
  key, with the `kv` middleware installed) is the field `State.kv`; `State.trace` is a
  ghost log of what happened, used to state the ordering properties.
* The response writer and the request handed to a stage are non-nil, and the request is
  passed unchanged to the next step, as `Use` does.
-/

namespace Injector

/-! ## Types and values -/

/-- A `reflect.Type`.  `writerImpl n` is a concrete type that implements
`http.ResponseWriter` (the dynamic type of a response writer), `other n` any other
named type, and `slice t` the slice type `[]t`. -/
inductive Ty where
  | responseWriter
  | requestPtr
  | stopChain
  | afterNext
  | writerImpl (n : Nat)
  | other (n : Nat)
  | slice (elem : Ty)
  deriving DecidableEq, Repr

/-- The package variable `responseType`: the interface type `http.ResponseWriter`. -/
abbrev responseType : Ty := Ty.responseWriter

/-- The package variable `requestType`: the type `*http.Request`. -/
abbrev requestType : Ty := Ty.requestPtr

/-- The package variable `stopChainType`: the type `StopChain`. -/
abbrev stopChainType : Ty := Ty.stopChain

/-- The package variable `afterNextType`: the type `AfterNext`. -/
abbrev afterNextType : Ty := Ty.afterNext

/-- An `http.ResponseWriter` value: its dynamic type and its identity. -/
structure Writer where
  impl : Nat
  id : Nat
  deriving DecidableEq, Repr

/-- A `*http.Request`, by identity. -/
abbrev Request := Nat

/-- A `reflect.Value`.  `writer w` is `reflect.ValueOf(w)`, `request r` is
`reflect.ValueOf(r)`, `stop` is the `StopChain` closure of the running invocation
(`func() { skipNext = true }`), `after` its `AfterNext` closure
(`func(f func()) { after = f }`), and `data t x` is any other value of type `t` with
payload `x`; payload `0` is the zero value. -/
inductive Val where
  | writer (w : Writer)
  | request (r : Request)
  | stop
  | after
  | data (t : Ty) (x : Nat)
  deriving DecidableEq, Repr

/-- The method `Value.Type()`. -/
def Val.type : Val → Ty
  | .writer w => Ty.writerImpl w.impl
  | .request _ => requestType
  | .stop => stopChainType
  | .after => afterNextType
  | .data t _ => t

/-- The function `reflect.Zero(t)`. -/
def Zero (t : Ty) : Val := Val.data t 0

/-- The method `Type.AssignableTo`: type identity, or a concrete writer type against the
interface `http.ResponseWriter`. -/
def Ty.AssignableTo (x t : Ty) : Bool :=
  x == t ||
    (t == responseType &&
      match x with
      | .writerImpl _ => true
      | _ => false)

/-! ## Function values -/

/-- The panics of the package (`helper`) and of `reflect.Value.Call`: `nilCall` is the
call of a nil function, `reflectCall` any panic of `Call` about its argument list (too
few or too many arguments, an argument that is not assignable to its parameter type or,
for a variadic function, to the element type of the last parameter). -/
inductive Fault where
  | nilFunc
  | notFunc
  | dupParam
  | dupReturn
  | nilCall
  | reflectCall
  deriving DecidableEq, Repr

/-- The text of each panic (for `reflectCall`, a summary of the texts `reflect` uses). -/
def Fault.message : Fault → String
  | .nilFunc => "injector: f can't be nil"
  | .notFunc => "injector: f must be a function"
  | .dupParam => "injector: every parameter of f must have unique type"
  | .dupReturn => "injector: every return of f must have unique type"
  | .nilCall => "reflect.Value.Call: call of nil function"
  | .reflectCall => "reflect: Call with mismatched arguments"

/-- The `reflect.Type` of a function: `NumIn()`, `In(i)`, `NumOut()`, `Out(i)` and
`IsVariadic()`.  For a variadic function such as `func(xs ...int)` the last parameter
type is the slice type (`In(0) = []int`). -/
structure FuncType where
  NumIn : Nat
  In : Nat → Ty
  NumOut : Nat
  Out : Nat → Ty
  IsVariadic : Bool

/-- What a function body does during one call.  `stop` calls the `StopChain` argument,
`after f` calls the `AfterNext` argument with `f` (`none` is a nil `func()`), `emit e` is
any other observable effect (a write to the response, a log line). -/
inductive Act where
  | stop
  | after (f : Option Nat)
  | emit (e : Nat)
  deriving DecidableEq, Repr

/-- The result of running a function body: its actions in order and the payload of each
returned value. -/
structure Outcome where
  acts : List Act
  rets : Nat → Nat

/-- A function value: a name (ghost, for the log), its type and its body.  `isNil` marks
a nil function value (`var f func(int)`), whose body never runs. -/
structure Callable where
  name : Nat
  typ : FuncType
  body : List Val → Outcome
  isNil : Bool

/-- An `interface{}` argument of `Use` / `Handler`: the nil interface, a value that is
not a function, or a function value (`func c` with `c.isNil` is an interface that holds
a nil function value, which is not the nil interface). -/
inductive Iface where
  | nil
  | nonFunc (t : Ty) (x : Nat)
  | func (c : Callable)

/-- The method `reflect.Value.Call`.  It panics on a nil function.  For a function that
is not variadic it panics unless there is one argument per parameter, each assignable to
the parameter type.  For a variadic function with `n + 1` parameters it panics unless
there are at least `n` arguments, the first `n` assignable to the parameter types and
every further one assignable to the element type of the last parameter type (the
variadic slice is made of them).  Otherwise it runs the body and returns one value per
declared return, typed by `Out(i)`. -/
def Callable.Call (c : Callable) (fIn : List Val) : Except Fault (List Act × List Val) :=
  if c.isNil then
    .error Fault.nilCall
  else if c.typ.IsVariadic then
    match c.typ.In (c.typ.NumIn - 1) with
    | .slice elem =>
      if fIn.length < c.typ.NumIn - 1 then
        .error Fault.reflectCall
      else if (List.range (c.typ.NumIn - 1)).all
            (fun i => ((fIn.getD i (Zero (c.typ.In i))).type).AssignableTo (c.typ.In i)) &&
          (fIn.drop (c.typ.NumIn - 1)).all (fun x => (x.type).AssignableTo elem) then
        .ok ((c.body fIn).acts,
          (List.range c.typ.NumOut).map
            (fun i => Val.data (c.typ.Out i) ((c.body fIn).rets i)))
      else
        .error Fault.reflectCall
    | _ => .error Fault.reflectCall
  else if fIn.length ≠ c.typ.NumIn then
    .error Fault.reflectCall
  else if (List.range c.typ.NumIn).all
      (fun i => ((fIn.getD i (Zero (c.typ.In i))).type).AssignableTo (c.typ.In i)) then
    .ok ((c.body fIn).acts,
      (List.range c.typ.NumOut).map (fun i => Val.data (c.typ.Out i) ((c.body fIn).rets i)))
  else
    .error Fault.reflectCall

/-! ## The signature inspector -/

/-- The loop `for _, item := range xs { if _, ok := set[item]; !ok { set[item] = struct{}{} }
else { panic(...) } }` of `helper`; `seen` is the set built so far. -/
def uniqueLoop (fault : Fault) : List Ty → List Ty → Except Fault Unit
  | _, [] => .ok ()
  | seen, item :: rest =>
    if item ∈ seen then .error fault else uniqueLoop fault (item :: seen) rest

/-- The function `helper`. -/
def helper (f : Iface) : Except Fault (Callable × List Ty) :=
  match f with
  | .nil => .error Fault.nilFunc
  | .nonFunc _ _ => .error Fault.notFunc
  | .func fValue =>
    let fType := fValue.typ
    let fInType := (List.range fType.NumIn).map fType.In
    match uniqueLoop Fault.dupParam [] fInType with
    | .error e => .error e
    | .ok _ =>
      let fOutType := (List.range fType.NumOut).map fType.Out
      match uniqueLoop Fault.dupReturn [] fOutType with
      | .error e => .error e
      | .ok _ => .ok (fValue, fInType)

/-! ## The per-request store -/

/-- A `map[reflect.Type]reflect.Value`. -/
abbrev Store := Ty → Option Val

/-- An entry of the ghost log: a function value `name` with declared parameter types
`params` is called with `args`; an effect of a body; a function value returns `vals`;
the after-callback `cb` of stage `name` is invoked. -/
inductive Event where
  | call (name : Nat) (params : List Ty) (args : List Val)
  | emit (e : Nat)
  | ret (name : Nat) (vals : List Val)
  | ran (name : Nat) (cb : Nat)
  deriving DecidableEq, Repr

/-- The mutable world of a request: what is attached to each request under the
package's key, and the log. -/
structure State where
  kv : Request → Option Store
  trace : List Event

/-- The function `getValuesMap`. -/
def getValuesMap (r : Request) (s : State) : Store × State :=
  match s.kv r with
  | some ret => (ret, s)
  | none =>
    let ret : Store := fun _ => none
    (ret, { s with kv := Function.update s.kv r (some ret) })

/-! ## Stages -/

/-- An `http.HandlerFunc`; a nil one is `none` in `Option HandlerFunc`. -/
abbrev HandlerFunc := Writer → Request → State → Except Fault State

/-- The two local variables `skipNext` and `after` of one invocation of a chainable
stage. -/
structure Locals where
  skipNext : Bool
  after : Option Nat
  deriving DecidableEq, Repr

/-- The effect of one action of the body on the locals, through the closures it was
handed in `fIn`: the `StopChain` closure sets `skipNext`, the `AfterNext` closure
assigns `after`.  An action on a capability that is not among the arguments has no
closure to go through. -/
def perform (fIn : List Val) (l : Locals) : Act → Locals
  | .stop => if Val.stop ∈ fIn then { l with skipNext := true } else l
  | .after f => if Val.after ∈ fIn then { l with after := f } else l
  | .emit _ => l

/-- The log entries of the observable effects among the actions of a body. -/
def effects : List Act → List Event
  | [] => []
  | .emit e :: rest => Event.emit e :: effects rest
  | _ :: rest => effects rest

/-- The log entries of one call of a function value. -/
def callEvents (c : Callable) (fInType : List Ty) (fIn : List Val) (acts : List Act)
    (fOut : List Val) : List Event :=
  Event.call c.name fInType fIn :: (effects acts ++ [Event.ret c.name fOut])

/-- The `switch` of `Use` that resolves one parameter (lines 75 to 98). -/
def useResolve (w : Writer) (r : Request) (valuesMap : Store) (t : Ty) : Val :=
  if t = responseType then Val.writer w
  else if t = requestType then Val.request r
  else if t = stopChainType then Val.stop
  else if t = afterNextType then Val.after
  else match valuesMap t with
    | some vTmp => vTmp
    | none => Zero t

/-- The publication loop of `Use` (lines 103 to 110). -/
def usePublish (valuesMap : Store) (fOut : List Val) : Store :=
  fOut.foldl (fun (m : Store) item =>
    match item.type with
    | .responseWriter | .requestPtr | .stopChain | .afterNext => m
    | t => Function.update m t (some item)) valuesMap

/-- The request handler returned by `Use(f)(next)` (lines 63 to 119). -/
def useServe (fValue : Callable) (fInType : List Ty) (next : Option HandlerFunc) :
    HandlerFunc := fun w r s =>
  let (valuesMap, s) := getValuesMap r s
  let fIn := fInType.map (useResolve w r valuesMap)
  match fValue.Call fIn with
  | .error e => .error e
  | .ok (acts, fOut) =>
    let locals := acts.foldl (perform fIn) { skipNext := false, after := none }
    let valuesMap := usePublish valuesMap fOut
    let s : State :=
      { kv := Function.update s.kv r (some valuesMap),
        trace := s.trace ++ callEvents fValue fInType fIn acts fOut }
    let continued : Except Fault State :=
      match next with
      | some nextFn => if !locals.skipNext then nextFn w r s else .ok s
      | none => .ok s
    match continued with
    | .error e => .error e
    | .ok s =>
      match locals.after with
      | some cb => .ok { s with trace := s.trace ++ [Event.ran fValue.name cb] }
      | none => .ok s

/-- The function `Use`. -/
def Use (f : Iface) : Except Fault (Option HandlerFunc → HandlerFunc) :=
  match helper f with
  | .error e => .error e
  | .ok (fValue, fInType) => .ok (fun next => useServe fValue fInType next)

/-- The function `Wrap`. -/
def Wrap (f : Iface) : Except Fault (Option HandlerFunc → HandlerFunc) := Use f

/-- The `switch` of `Handler` that resolves one parameter (lines 137 to 150). -/
def handlerResolve (w : Writer) (r : Request) (valuesMap : Store) (t : Ty) : Val :=
  if t = responseType then Val.writer w
  else if t = requestType then Val.request r
  else match valuesMap t with
    | some vTmp => vTmp
    | none => Zero t

/-- The publication loop of `Handler` (lines 155 to 162). -/
def handlerPublish (valuesMap : Store) (fOut : List Val) : Store :=
  fOut.foldl (fun (m : Store) item =>
    match item.type with
    | .responseWriter | .requestPtr | .stopChain | .afterNext => m
    | t => Function.update m t (some item)) valuesMap

/-- The request handler returned by `Handler(f)` (lines 128 to 163). -/
def handlerServe (fValue : Callable) (fInType : List Ty) : HandlerFunc := fun w r s =>
  let (valuesMap, s) := getValuesMap r s
  let fIn := fInType.map (handlerResolve w r valuesMap)
  match fValue.Call fIn with
  | .error e => .error e
  | .ok (acts, fOut) =>
    let valuesMap := handlerPublish valuesMap fOut
    .ok { kv := Function.update s.kv r (some valuesMap),
          trace := s.trace ++ callEvents fValue fInType fIn acts fOut }

/-- The function `Handler`. -/
def Handler (f : Iface) : Except Fault HandlerFunc :=
  match helper f with
  | .error e => .error e
  | .ok (fValue, fInType) => .ok (handlerServe fValue fInType)

/-! ## Chains -/

/-- A chain built by nesting: each chainable stage receives the rest of the chain as its
next step, and the innermost next step is `last` (a terminal stage, or nil). -/
def compile : List (Option HandlerFunc → HandlerFunc) → Option HandlerFunc →
    Option HandlerFunc
  | [], last => last
  | m :: ms, last => some (m (compile ms last))

/-- Running an optional handler; a nil handler does nothing. -/
def serve (h : Option HandlerFunc) (w : Writer) (r : Request) (s : State) :
    Except Fault State :=
  match h with
  | some hf => hf w r s
  | none => .ok s

/-! ## Notions used to state the properties -/

/-- The four built-in capability types. -/
def Ty.builtin : Ty → Bool
  | .responseWriter | .requestPtr | .stopChain | .afterNext => true
  | _ => false

/-- The store a stage works on for request `r`: the attached one, or a new empty one. -/
def storeOf (r : Request) (s : State) : Store := (getValuesMap r s).1

/-- Each entry of the store is keyed by the type of the value it holds. -/
def Store.WellTyped (m : Store) : Prop := ∀ t v, m t = some v → v.type = t

/-- A state in which no store is attached to any request and nothing is logged. -/
def State.fresh : State := { kv := fun _ => none, trace := [] }

/-- The values returned so far according to the log, oldest first. -/
def returned : List Event → List Val
  | [] => []
  | .ret _ vals :: rest => vals ++ returned rest
  | _ :: rest => returned rest

/-- The last value of type `t` returned according to the log, if any. -/
def lastProduced (t : Ty) (tr : List Event) : Option Val :=
  ((returned tr).filter (fun v => v.type = t)).getLast?

/-- The names of the function values called according to the log, in order. -/
def callNames : List Event → List Nat
  | [] => []
  | .call n _ _ :: rest => n :: callNames rest
  | _ :: rest => callNames rest

/-- The names of the stages whose after-callback ran according to the log, in order. -/
def ranNames : List Event → List Nat
  | [] => []
  | .ran n _ :: rest => n :: ranNames rest
  | _ :: rest => ranNames rest

/-- The content of the after-slot of a chainable stage when its body, called with
`fIn`, has returned. -/
def afterSlot (c : Callable) (fIn : List Val) : Option Nat :=
  ((c.body fIn).acts.foldl (perform fIn) { skipNext := false, after := none }).after

/-- The value of the stop-flag of a chainable stage when its body, called with `fIn`,
has returned. -/
def stopFlag (c : Callable) (fIn : List Val) : Bool :=
  ((c.body fIn).acts.foldl (perform fIn) { skipNext := false, after := none }).skipNext

/-- The declared parameter types of a function value, in order (what `helper`
returns on success). -/
def Callable.ins (c : Callable) : List Ty := (List.range c.typ.NumIn).map c.typ.In

/-- The values `reflect.Value.Call` returns for a body called with `fIn`. -/
def Callable.results (c : Callable) (fIn : List Val) : List Val :=
  (List.range c.typ.NumOut).map (fun i => Val.data (c.typ.Out i) ((c.body fIn).rets i))

/-- The lookup with zero-value fallback: the entry of `m` for `t`, or `reflect.Zero(t)`. -/
def orZero (m : Store) (t : Ty) : Val :=
  match m t with
  | some v => v
  | none => Zero t

/-- An ordinary function value: not a nil function and not variadic. -/
def Callable.plain (c : Callable) : Bool := !c.isNil && !c.typ.IsVariadic

/-- An `interface{}` argument that holds an ordinary function value. -/
def Iface.plain : Iface → Bool
  | .func c => c.plain
  | _ => false

/-- The arguments a chainable stage resolves in state `s`. -/
def useArgs (fInType : List Ty) (w : Writer) (r : Request) (s : State) : List Val :=
  fInType.map (useResolve w r (storeOf r s))

/-- The arguments a terminal stage resolves in state `s`. -/
def handlerArgs (fInType : List Ty) (w : Writer) (r : Request) (s : State) : List Val :=
  fInType.map (handlerResolve w r (storeOf r s))

/-- The state of a chainable stage when its body has returned `fOut` after the actions
`acts` and the results are published: the point where the next step is considered. -/
def usePublished (c : Callable) (fInType : List Ty) (w : Writer) (r : Request) (s : State)
    (acts : List Act) (fOut : List Val) : State :=
  { kv := Function.update s.kv r (some (usePublish (storeOf r s) fOut)),
    trace := s.trace ++ callEvents c fInType (useArgs fInType w r s) acts fOut }

/-- The locals of a chainable stage after the actions `acts` of a body called with
`fIn`. -/
def localsAfter (fIn : List Val) (acts : List Act) : Locals :=
  acts.foldl (perform fIn) { skipNext := false, after := none }

/-- Appending the invocation of an after-callback to the log. -/
def State.logRan (s : State) (name cb : Nat) : State :=
  { s with trace := s.trace ++ [Event.ran name cb] }

/-- Registration of the chainable stages of a chain, in order, through `Use`. -/
def useAll : List Iface → Except Fault (List (Option HandlerFunc → HandlerFunc))
  | [] => .ok []
  | f :: fs =>
    match Use f with
    | .error e => .error e
    | .ok m =>
      match useAll fs with
      | .error e => .error e
      | .ok ms => .ok (m :: ms)

/-- Registration of the optional terminal stage of a chain through `Handler`. -/
def terminal : Option Iface → Except Fault (Option HandlerFunc)
  | none => .ok none
  | some f =>
    match Handler f with
    | .error e => .error e
    | .ok h => .ok (some h)

/-- A chain: the chainable stages `fs` registered in order, nested around the terminal
stage `last` (or around nothing). -/
def chain (fs : List Iface) (last : Option Iface) : Except Fault (Option HandlerFunc) :=
  match useAll fs with
  | .error e => .error e
  | .ok ms =>
    match terminal last with
    | .error e => .error e
    | .ok l => .ok (compile ms l)

/-- A function value that `helper` accepts. -/
def Callable.accepted (c : Callable) : Prop :=
  c.ins.Nodup ∧ ((List.range c.typ.NumOut).map c.typ.Out).Nodup

/-- The chainable stages of accepted function values. -/
def stagesOf (cs : List Callable) : List (Option HandlerFunc → HandlerFunc) :=
  cs.map (fun c => fun next => useServe c c.ins next)

/-- The terminal stage of an accepted function value. -/
def terminalOf (lc : Option Callable) : Option HandlerFunc :=
  lc.map (fun c => handlerServe c c.ins)

/-- The store obtained from `m` by publishing, in order, the values returned according to
the log. -/
def replay (m : Store) : List Event → Store
  | [] => m
  | .ret _ vals :: rest => replay (usePublish m vals) rest
  | _ :: rest => replay m rest

/-- A log is consistent from store `m` (for writer `w` and request `r`) when every
call in it received, for each parameter, what the switch of a chainable stage or of a
terminal stage resolves it to in the store as published so far, and every return
carries at most one value per type. -/
def consistent (w : Writer) (r : Request) (m : Store) : List Event → Prop
  | [] => True
  | .call _ params args :: rest =>
    List.Forall₂ (fun t a => a = useResolve w r m t ∨ a = handlerResolve w r m t)
        params args ∧
      consistent w r m rest
  | .ret _ vals :: rest =>
    (vals.map Val.type).Nodup ∧ consistent w r (usePublish m vals) rest
  | _ :: rest => consistent w r m rest

/-- The log entry of the after-callback left in the slot, if any. -/
def ranPart (name : Nat) : Option Nat → List Event
  | some cb => [Event.ran name cb]
  | none => []

/-- A store populated only by the publication loops of `Use` and `Handler`, starting
from the empty store. -/
inductive Store.Populated : Store → Prop where
  | empty : Store.Populated (fun _ => none)
  | use (m : Store) (fOut : List Val) :
      Store.Populated m → Store.Populated (usePublish m fOut)
  | handler (m : Store) (fOut : List Val) :
      Store.Populated m → Store.Populated (handlerPublish m fOut)

/-- A state of request `r` reached from one in which its store is empty (or not yet
attached) by running chains of `Use` stages and `Handler` stages on the request. -/
inductive Reached (r : Request) : State → Prop where
  | start (s : State) : storeOf r s = (fun _ => none) → Reached r s
  | run (fs : List Iface) (last : Option Iface) (h : Option HandlerFunc) (w : Writer)
      (s s2 : State) :
      Reached r s → chain fs last = .ok h → serve h w r s = .ok s2 → Reached r s2

/-! ## The example of `injector_example_test.go` and other small function values -/

/-- The local type `method` of the example. -/
abbrev methodType : Ty := Ty.other 0

/-- The type `*url.URL` of the example. -/
abbrev urlType : Ty := Ty.other 1

/-- The first stage of the example: `func(r *http.Request) (method, *url.URL)`. -/
def exampleStage1 : Callable :=
  { name := 1, isNil := false,
    typ := { NumIn := 1, In := fun _ => requestType,
             NumOut := 2, Out := fun i => if i = 0 then methodType else urlType,
             IsVariadic := false },
    body := fun _ => { acts := [], rets := fun i => if i = 0 then 71 else 85 } }

/-- The second stage of the example:
`func(m method, u *url.URL, after injector.AfterNext)`, which registers the timing
callback (callback `100`). -/
def exampleStage2 : Callable :=
  { name := 2, isNil := false,
    typ := { NumIn := 3,
             In := fun i => if i = 0 then methodType else if i = 1 then urlType
               else afterNextType,
             NumOut := 0, Out := fun _ => methodType,
             IsVariadic := false },
    body := fun _ => { acts := [Act.after (some 100)], rets := fun _ => 0 } }

/-- The terminal handler of the example: `func(w http.ResponseWriter)`, which writes
"hello" (effect `1`). -/
def exampleHello : Callable :=
  { name := 3, isNil := false,
    typ := { NumIn := 1, In := fun _ => responseType, NumOut := 0, Out := fun _ => methodType,
             IsVariadic := false },
    body := fun _ => { acts := [Act.emit 1], rets := fun _ => 0 } }

/-- A function `func(stop injector.StopChain, after injector.AfterNext) int` that calls
`stop` twice, registers callback `7`, produces effect `9` and returns `41`. -/
def stopper : Callable :=
  { name := 20, isNil := false,
    typ := { NumIn := 2, In := fun i => if i = 0 then stopChainType else afterNextType,
             NumOut := 1, Out := fun _ => Ty.other 5,
             IsVariadic := false },
    body := fun _ =>
      { acts := [Act.stop, Act.after (some 7), Act.emit 9, Act.stop], rets := fun _ => 41 } }

/-- The response writer used in the examples. -/
def exampleWriter : Writer := { impl := 0, id := 0 }

/-- The state of the example request when its first stage has returned and its results
are published. -/
def exampleAfterStage1 : State :=
  usePublished exampleStage1 exampleStage1.ins exampleWriter 0 State.fresh []
    [Val.data methodType 71, Val.data urlType 85]

/-- The state of the example request when its second stage has returned and its results
are published. -/
def exampleAfterStage2 : State :=
  usePublished exampleStage2 exampleStage2.ins exampleWriter 0 exampleAfterStage1
    [Act.after (some 100)] []

/-- The state of the example request when the terminal handler has returned, before the
timing callback of the second stage. -/
def exampleAfterHello : State :=
  { kv := Function.update exampleAfterStage2.kv 0
      (some (handlerPublish (storeOf 0 exampleAfterStage2) [])),
    trace :=
      [Event.call 1 [requestType] [Val.request 0],
       Event.ret 1 [Val.data methodType 71, Val.data urlType 85],
       Event.call 2 [methodType, urlType, afterNextType]
         [Val.data methodType 71, Val.data urlType 85, Val.after],
       Event.ret 2 [],
       Event.call 3 [responseType] [Val.writer exampleWriter],
       Event.emit 1,
       Event.ret 3 []] }

/-- A function `func() *http.Request` that returns another request (payload `5`). -/
def returnsRequest : Callable :=
  { name := 31, isNil := false,
    typ := { NumIn := 0, In := fun _ => requestType, NumOut := 1, Out := fun _ => requestType,
             IsVariadic := false },
    body := fun _ => { acts := [], rets := fun _ => 5 } }

/-- A function `func(r *http.Request)`. -/
def takesRequest : Callable :=
  { name := 32, isNil := false,
    typ := { NumIn := 1, In := fun _ => requestType, NumOut := 0, Out := fun _ => requestType,
             IsVariadic := false },
    body := fun _ => { acts := [], rets := fun _ => 0 } }

/-- A function `func(a int)`. -/
def takesInt : Callable :=
  { name := 34, isNil := false,
    typ := { NumIn := 1, In := fun _ => Ty.other 5, NumOut := 0, Out := fun _ => Ty.other 5,
             IsVariadic := false },
    body := fun _ => { acts := [], rets := fun _ => 0 } }

/-- A function `func(after injector.AfterNext)` that registers the callback `cb`. -/
def registers (name cb : Nat) : Callable :=
  { name := name, isNil := false,
    typ := { NumIn := 1, In := fun _ => afterNextType, NumOut := 0, Out := fun _ => Ty.other 5,
             IsVariadic := false },
    body := fun _ => { acts := [Act.after (some cb)], rets := fun _ => 0 } }

/-- A function `func(a int, b int)`: the same type at two parameter positions. -/
def twoIntParams : Callable :=
  { name := 10, isNil := false,
    typ := { NumIn := 2, In := fun _ => Ty.other 5, NumOut := 0, Out := fun _ => Ty.other 5,
             IsVariadic := false },
    body := fun _ => { acts := [], rets := fun _ => 0 } }

/-- A function `func(a int) (int, int)`: the same type at two return positions. -/
def twoIntReturns : Callable :=
  { name := 11, isNil := false,
    typ := { NumIn := 1, In := fun _ => Ty.other 5, NumOut := 2, Out := fun _ => Ty.other 5,
             IsVariadic := false },
    body := fun _ => { acts := [], rets := fun i => i + 1 } }

/-- A function `func(a int) int` that returns its argument plus one: it consumes and
refreshes the same type. -/
def refreshInt : Callable :=
  { name := 12, isNil := false,
    typ := { NumIn := 1, In := fun _ => Ty.other 5, NumOut := 1, Out := fun _ => Ty.other 5,
             IsVariadic := false },
    body := fun args => { acts := [], rets := fun _ =>
      match args with
      | [Val.data _ x] => x + 1
      | _ => 0 } }

/-- A function `func() int` that returns the constant `x`. -/
def constInt (name x : Nat) : Callable :=
  { name := name, isNil := false,
    typ := { NumIn := 0, In := fun _ => Ty.other 5, NumOut := 1, Out := fun _ => Ty.other 5,
             IsVariadic := false },
    body := fun _ => { acts := [], rets := fun _ => x } }

/-- A store that holds an entry under each of the four built-in capability types. -/
def shadowStore : Store := fun t =>
  match t with
  | .responseWriter => some (Val.data responseType 9)
  | .requestPtr => some (Val.data requestType 9)
  | .stopChain => some (Val.data stopChainType 9)
  | .afterNext => some (Val.data afterNextType 9)
  | _ => none

/-- A state whose request `0` carries `shadowStore`. -/
def shadowState : State := { kv := fun _ => some shadowStore, trace := [] }

/-- A function
`func(w http.ResponseWriter, r *http.Request, stop injector.StopChain, after injector.AfterNext)`
that does nothing. -/
def takesAll : Callable :=
  { name := 50, isNil := false,
    typ := { NumIn := 4,
             In := fun i => if i = 0 then responseType else if i = 1 then requestType
               else if i = 2 then stopChainType else afterNextType,
             NumOut := 0, Out := fun _ => Ty.other 5,
             IsVariadic := false },
    body := fun _ => { acts := [], rets := fun _ => 0 } }

/-- A function `func(w http.ResponseWriter) (http.ResponseWriter, injector.StopChain, int)`
that returns a writer, a stop function and the `int` 8. -/
def returnsCapabilities : Callable :=
  { name := 51, isNil := false,
    typ := { NumIn := 1, In := fun _ => responseType,
             NumOut := 3,
             Out := fun i => if i = 0 then responseType else if i = 1 then stopChainType
               else Ty.other 5,
             IsVariadic := false },
    body := fun _ => { acts := [], rets := fun i => if i = 2 then 8 else 3 } }

/-- A function `func(after injector.AfterNext)` that registers callback `1`, then
callback `2`, then produces effect `4`. -/
def registersTwice : Callable :=
  { name := 52, isNil := false,
    typ := { NumIn := 1, In := fun _ => afterNextType, NumOut := 0, Out := fun _ => Ty.other 5,
             IsVariadic := false },
    body := fun _ =>
      { acts := [Act.after (some 1), Act.after (some 2), Act.emit 4], rets := fun _ => 0 } }

/-- A function `func(stop injector.StopChain, after injector.AfterNext)` that does
nothing. -/
def wantsCapabilities : Callable :=
  { name := 53, isNil := false,
    typ := { NumIn := 2, In := fun i => if i = 0 then stopChainType else afterNextType,
             NumOut := 0, Out := fun _ => Ty.other 5,
             IsVariadic := false },
    body := fun _ => { acts := [], rets := fun _ => 0 } }

/-- A nil function value of type `func(a int)`: `var f func(int)`. -/
def nilIntFunc : Callable :=
  { name := 60, isNil := true,
    typ := { NumIn := 1, In := fun _ => Ty.other 5, NumOut := 0, Out := fun _ => Ty.other 5,
             IsVariadic := false },
    body := fun _ => { acts := [], rets := fun _ => 0 } }

/-- A variadic function `func(xs ...int)`: one parameter, of type `[]int`. -/
def variadicInts : Callable :=
  { name := 61, isNil := false,
    typ := { NumIn := 1, In := fun _ => Ty.slice (Ty.other 5),
             NumOut := 0, Out := fun _ => Ty.other 5,
             IsVariadic := true },
    body := fun _ => { acts := [Act.emit 2], rets := fun _ => 0 } }

/-- The function `func(xs []int)`, not variadic: one parameter, of type `[]int`. -/
def takesIntSlice : Callable :=
  { name := 62, isNil := false,
    typ := { NumIn := 1, In := fun _ => Ty.slice (Ty.other 5),
             NumOut := 0, Out := fun _ => Ty.other 5,
             IsVariadic := false },
    body := fun _ => { acts := [Act.emit 2], rets := fun _ => 0 } }

/-! ## Theorems -/

theorem uniqueLoop_ok_iff (fault : Fault) (seen l : List Ty) :
    uniqueLoop fault seen l = .ok () ↔ l.Nodup ∧ ∀ x ∈ l, x ∉ seen := by
  induction l generalizing seen with
  | nil => simp [uniqueLoop]
  | cons a l ih =>
    unfold uniqueLoop
    by_cases h : a ∈ seen
    · simp [h]
    · simp only [h, if_false, ih, List.nodup_cons, List.mem_cons, forall_eq_or_imp, not_or]
      constructor
      · rintro ⟨h1, h2⟩
        exact ⟨⟨fun ha => (h2 a ha).1 rfl, h1⟩, not_false, fun x hx => (h2 x hx).2⟩
      · rintro ⟨⟨h1, h2⟩, _, h4⟩
        exact ⟨h2, fun x hx => ⟨fun e => h1 (e ▸ hx), h4 x hx⟩⟩

theorem nodup_map_range_iff (n : Nat) (g : Nat → Ty) :
    ((List.range n).map g).Nodup ↔ ∀ i j, i < j → j < n → g i ≠ g j := by
  induction n with
  | zero => simp
  | succ n ih =>
    rw [List.range_succ, List.map_append, List.nodup_append, ih]
    simp only [List.map_cons, List.map_nil, List.nodup_cons, List.not_mem_nil,
      not_false_eq_true, List.nodup_nil, and_self, true_and, List.disjoint_singleton,
      List.mem_map, List.mem_range, not_exists, not_and]
    constructor
    · rintro ⟨h1, h2⟩ i j hij hj
      rcases Nat.lt_succ_iff_lt_or_eq.mp hj with hlt | heq
      · exact h1 i j hij hlt
      · subst heq
        exact h2 i hij
    · intro h
      exact ⟨fun i j hij hj => h i j hij (Nat.lt_succ_of_lt hj),
        fun i hi => h i n hi (Nat.lt_succ_self n)⟩

theorem uniqueLoop_error (fault e : Fault) (seen l : List Ty)
    (h : uniqueLoop fault seen l = .error e) : e = fault := by
  induction l generalizing seen with
  | nil => simp [uniqueLoop] at h
  | cons a l ih =>
    unfold uniqueLoop at h
    by_cases ha : a ∈ seen
    · simp [ha] at h
      exact h.symm
    · simp only [ha, if_false] at h
      exact ih _ h

theorem uniqueLoop_nil_seen (fault : Fault) (l : List Ty) :
    uniqueLoop fault [] l = .ok () ↔ l.Nodup := by
  rw [uniqueLoop_ok_iff]
  simp

theorem uniqueLoop_dup (fault : Fault) (l : List Ty) (h : ¬ l.Nodup) :
    uniqueLoop fault [] l = .error fault := by
  cases hres : uniqueLoop fault [] l with
  | error e => rw [uniqueLoop_error fault e [] l hres]
  | ok u =>
    cases u
    exact absurd ((uniqueLoop_nil_seen fault l).mp hres) h

theorem helper_dupParam (c : Callable)
    (h : ¬ ((List.range c.typ.NumIn).map c.typ.In).Nodup) :
    helper (.func c) = .error Fault.dupParam := by
  simp only [helper, uniqueLoop_dup _ _ h]

theorem helper_dupReturn (c : Callable)
    (hin : ((List.range c.typ.NumIn).map c.typ.In).Nodup)
    (h : ¬ ((List.range c.typ.NumOut).map c.typ.Out).Nodup) :
    helper (.func c) = .error Fault.dupReturn := by
  simp only [helper, (uniqueLoop_nil_seen _ _).mpr hin, uniqueLoop_dup _ _ h]

theorem helper_accepts (c : Callable)
    (hin : ((List.range c.typ.NumIn).map c.typ.In).Nodup)
    (hout : ((List.range c.typ.NumOut).map c.typ.Out).Nodup) :
    helper (.func c) = .ok (c, (List.range c.typ.NumIn).map c.typ.In) := by
  simp only [helper, (uniqueLoop_nil_seen _ _).mpr hin, (uniqueLoop_nil_seen _ _).mpr hout]

/-- C1: a function value that declares the same type at two different parameter
positions is refused by the registration call itself: `helper`, `Use` and `Handler`
all end in the panic "every parameter of f must have unique type", so no stage (no
function awaiting a next step or a request) is returned. -/
theorem C1_duplicate_parameter_rejected (c : Callable) (i j : Nat) (hij : i < j)
    (hj : j < c.typ.NumIn) (hdup : c.typ.In i = c.typ.In j) :
    helper (.func c) = .error Fault.dupParam ∧
      Use (.func c) = .error Fault.dupParam ∧
      Handler (.func c) = .error Fault.dupParam := by
  have hnd : ¬ ((List.range c.typ.NumIn).map c.typ.In).Nodup := by
    rw [nodup_map_range_iff]
    intro h
    exact h i j hij hj hdup
  have hh := helper_dupParam c hnd
  refine ⟨hh, ?_, ?_⟩
  · simp only [Use, hh]
  · simp only [Handler, hh]

/-- Witness of C1 on `func(a int, b int)`. -/
theorem C1_duplicate_parameter_rejected_witness :
    (0 < 1 ∧ 1 < twoIntParams.typ.NumIn ∧ twoIntParams.typ.In 0 = twoIntParams.typ.In 1) ∧
      (helper (.func twoIntParams) = .error Fault.dupParam ∧
        Use (.func twoIntParams) = .error Fault.dupParam ∧
        Handler (.func twoIntParams) = .error Fault.dupParam) :=
  ⟨⟨by decide, by decide, rfl⟩,
    C1_duplicate_parameter_rejected twoIntParams 0 1 (by decide) (by decide) rfl⟩

/-- C2: a function value that declares the same type at two different return positions
is refused by the registration call itself: `helper`, `Use` and `Handler` end in a
configuration panic and return no stage; when the parameter types are pairwise distinct
the panic is "every return of f must have unique type". -/
theorem C2_duplicate_return_rejected (c : Callable) (i j : Nat) (hij : i < j)
    (hj : j < c.typ.NumOut) (hdup : c.typ.Out i = c.typ.Out j) :
    (∃ e, (e = Fault.dupParam ∨ e = Fault.dupReturn) ∧
        helper (.func c) = .error e ∧ Use (.func c) = .error e ∧
        Handler (.func c) = .error e) ∧
      ((∀ a b, a < b → b < c.typ.NumIn → c.typ.In a ≠ c.typ.In b) →
        helper (.func c) = .error Fault.dupReturn ∧
        Use (.func c) = .error Fault.dupReturn ∧
        Handler (.func c) = .error Fault.dupReturn) := by
  have hnd : ¬ ((List.range c.typ.NumOut).map c.typ.Out).Nodup := by
    rw [nodup_map_range_iff]
    intro h
    exact h i j hij hj hdup
  have key : (∀ a b, a < b → b < c.typ.NumIn → c.typ.In a ≠ c.typ.In b) →
      helper (.func c) = .error Fault.dupReturn ∧
      Use (.func c) = .error Fault.dupReturn ∧
      Handler (.func c) = .error Fault.dupReturn := by
    intro hin
    have hh := helper_dupReturn c ((nodup_map_range_iff _ _).mpr hin) hnd
    refine ⟨hh, ?_, ?_⟩
    · simp only [Use, hh]
    · simp only [Handler, hh]
  refine ⟨?_, key⟩
  by_cases hin : ((List.range c.typ.NumIn).map c.typ.In).Nodup
  · obtain ⟨h1, h2, h3⟩ := key ((nodup_map_range_iff _ _).mp hin)
    exact ⟨Fault.dupReturn, Or.inr rfl, h1, h2, h3⟩
  · have hh := helper_dupParam c hin
    refine ⟨Fault.dupParam, Or.inl rfl, hh, ?_, ?_⟩
    · simp only [Use, hh]
    · simp only [Handler, hh]

/-- Witness of C2 on `func(a int) (int, int)`, whose single parameter type is trivially
distinct. -/
theorem C2_duplicate_return_rejected_witness :
    (0 < 1 ∧ 1 < twoIntReturns.typ.NumOut ∧
        twoIntReturns.typ.Out 0 = twoIntReturns.typ.Out 1) ∧
      (helper (.func twoIntReturns) = .error Fault.dupReturn ∧
        Use (.func twoIntReturns) = .error Fault.dupReturn ∧
        Handler (.func twoIntReturns) = .error Fault.dupReturn) :=
  ⟨⟨by decide, by decide, rfl⟩,
    (C2_duplicate_return_rejected twoIntReturns 0 1 (by decide) (by decide) rfl).2
      (fun a b hab hb => by
        have h1 : b < 1 := hb
        omega)⟩

/-- C3: the nil interface and every value that is not a function are refused by the
registration call itself: `helper`, `Use` and `Handler` panic ("f can't be nil",
"f must be a function") and return no stage. -/
theorem C3_nil_or_non_function_rejected :
    (helper Iface.nil = .error Fault.nilFunc ∧ Use Iface.nil = .error Fault.nilFunc ∧
        Handler Iface.nil = .error Fault.nilFunc) ∧
      ∀ t x, helper (Iface.nonFunc t x) = .error Fault.notFunc ∧
        Use (Iface.nonFunc t x) = .error Fault.notFunc ∧
        Handler (Iface.nonFunc t x) = .error Fault.notFunc :=
  ⟨⟨rfl, rfl, rfl⟩, fun _ _ => ⟨rfl, rfl, rfl⟩⟩

/-- What `helper` accepts: exactly the function values (nil function values included)
whose parameter types are pairwise distinct and whose return types are pairwise
distinct, whatever types the two lists have in common; on success it returns the
function value and its parameter-type list, and `Use` and `Handler` return a stage. -/
theorem helper_accepts_exactly (f : Iface) :
    ((∃ p, helper f = .ok p) ↔
      ∃ c, f = Iface.func c ∧
        (∀ i j, i < j → j < c.typ.NumIn → c.typ.In i ≠ c.typ.In j) ∧
        (∀ i j, i < j → j < c.typ.NumOut → c.typ.Out i ≠ c.typ.Out j)) ∧
    (∀ p, helper f = .ok p →
      f = Iface.func p.1 ∧ p.2 = (List.range p.1.typ.NumIn).map p.1.typ.In ∧
      (∃ m, Use f = .ok m) ∧ (∃ h, Handler f = .ok h)) := by
  cases f with
  | nil => exact ⟨⟨fun ⟨p, hp⟩ => by simp [helper] at hp, fun ⟨c, hc, _⟩ => by cases hc⟩,
      fun p hp => by simp [helper] at hp⟩
  | nonFunc t x =>
    exact ⟨⟨fun ⟨p, hp⟩ => by simp [helper] at hp, fun ⟨c, hc, _⟩ => by cases hc⟩,
      fun p hp => by simp [helper] at hp⟩
  | func c =>
    by_cases hin : ((List.range c.typ.NumIn).map c.typ.In).Nodup
    · by_cases hout : ((List.range c.typ.NumOut).map c.typ.Out).Nodup
      · have hh := helper_accepts c hin hout
        refine ⟨⟨fun _ => ⟨c, rfl, (nodup_map_range_iff _ _).mp hin,
          (nodup_map_range_iff _ _).mp hout⟩, fun _ => ⟨_, hh⟩⟩, ?_⟩
        intro p hp
        rw [hh] at hp
        cases hp
        refine ⟨rfl, rfl, ?_, ?_⟩
        · exact ⟨_, by simp only [Use, hh]; rfl⟩
        · exact ⟨_, by simp only [Handler, hh]; rfl⟩
      · have hh := helper_dupReturn c hin hout
        refine ⟨⟨fun ⟨p, hp⟩ => (by rw [hh] at hp; cases hp), ?_⟩,
          fun p hp => (by rw [hh] at hp; cases hp)⟩
        rintro ⟨c2, hc, _, h2⟩
        cases hc
        exact absurd ((nodup_map_range_iff _ _).mpr h2) hout
    · have hh := helper_dupParam c hin
      refine ⟨⟨fun ⟨p, hp⟩ => (by rw [hh] at hp; cases hp), ?_⟩,
        fun p hp => (by rw [hh] at hp; cases hp)⟩
      rintro ⟨c2, hc, h1, _⟩
      cases hc
      exact absurd ((nodup_map_range_iff _ _).mpr h1) hin

/-! ### One stage invocation -/

theorem getValuesMap_trace (r : Request) (s : State) : (getValuesMap r s).2.trace = s.trace := by
  unfold getValuesMap
  cases s.kv r <;> rfl

theorem update_getValuesMap_kv (r : Request) (s : State) (x : Option Store) :
    Function.update (getValuesMap r s).2.kv r x = Function.update s.kv r x := by
  unfold getValuesMap
  cases s.kv r <;> simp

theorem Call_nil (c : Callable) (hnil : c.isNil = true) (fIn : List Val) :
    c.Call fIn = .error Fault.nilCall := by
  unfold Callable.Call
  simp [hnil]

theorem Call_plain (c : Callable) (hnil : c.isNil = false) (hvar : c.typ.IsVariadic = false)
    (fIn : List Val) :
    c.Call fIn =
      if fIn.length ≠ c.typ.NumIn then
        .error Fault.reflectCall
      else if (List.range c.typ.NumIn).all
          (fun i => ((fIn.getD i (Zero (c.typ.In i))).type).AssignableTo (c.typ.In i)) then
        .ok ((c.body fIn).acts,
          (List.range c.typ.NumOut).map
            (fun i => Val.data (c.typ.Out i) ((c.body fIn).rets i)))
      else
        .error Fault.reflectCall := by
  unfold Callable.Call
  simp [hnil, hvar]

theorem Call_ok_shape (c : Callable) (fIn : List Val) (acts : List Act) (fOut : List Val)
    (h : c.Call fIn = .ok (acts, fOut)) :
    c.isNil = false ∧ acts = (c.body fIn).acts ∧ fOut = c.results fIn := by
  unfold Callable.Call at h
  cases hnil : c.isNil with
  | true => simp [hnil] at h
  | false =>
    refine ⟨rfl, ?_⟩
    simp only [hnil, Bool.false_eq_true, if_false] at h
    by_cases hvar : c.typ.IsVariadic = true
    · simp only [hvar, if_true] at h
      split at h
      · by_cases hlen : fIn.length < c.typ.NumIn - 1
        · simp only [hlen, if_true] at h
          cases h
        · simp only [hlen, if_false] at h
          split at h
          · simp only [Except.ok.injEq, Prod.mk.injEq] at h
            exact ⟨h.1.symm, h.2.symm⟩
          · cases h
      · cases h
    · simp only [hvar, if_false] at h
      by_cases hlen : fIn.length ≠ c.typ.NumIn
      · rw [if_pos hlen] at h
        cases h
      · rw [if_neg hlen] at h
        by_cases hall : (List.range c.typ.NumIn).all
            (fun i => ((fIn.getD i (Zero (c.typ.In i))).type).AssignableTo (c.typ.In i)) = true
        · rw [if_pos hall] at h
          cases h
          exact ⟨rfl, rfl⟩
        · rw [if_neg hall] at h
          cases h

theorem Call_ok_iff (c : Callable) (hnil : c.isNil = false)
    (hvar : c.typ.IsVariadic = false) (fIn : List Val) (acts : List Act) (fOut : List Val) :
    c.Call fIn = .ok (acts, fOut) ↔
      fIn.length = c.typ.NumIn ∧
      (∀ i, i < c.typ.NumIn → ((fIn.getD i (Zero (c.typ.In i))).type).AssignableTo (c.typ.In i) = true) ∧
      acts = (c.body fIn).acts ∧
      fOut = (List.range c.typ.NumOut).map
        (fun i => Val.data (c.typ.Out i) ((c.body fIn).rets i)) := by
  rw [Call_plain c hnil hvar]
  by_cases hlen : fIn.length = c.typ.NumIn
  · by_cases hall : (List.range c.typ.NumIn).all
        (fun i => ((fIn.getD i (Zero (c.typ.In i))).type).AssignableTo (c.typ.In i)) = true
    · have hall2 := hall
      rw [List.all_eq_true] at hall2
      simp only [hlen, ne_eq, not_true_eq_false, if_false, hall, if_true, Except.ok.injEq,
        Prod.mk.injEq, true_and]
      constructor
      · rintro ⟨h1, h2⟩
        exact ⟨fun i hi => hall2 i (List.mem_range.mpr hi), h1.symm, h2.symm⟩
      · rintro ⟨_, h1, h2⟩
        exact ⟨h1.symm, h2.symm⟩
    · simp only [hlen, ne_eq, not_true_eq_false, if_false, hall, true_and]
      constructor
      · intro h
        cases h
      · rintro ⟨h1, _⟩
        exact absurd (List.all_eq_true.mpr (fun i hi => h1 i (List.mem_range.mp hi))) hall
  · simp [hlen]

theorem useServe_of_call (c : Callable) (ins : List Ty) (next : Option HandlerFunc)
    (w : Writer) (r : Request) (s : State) (acts : List Act) (fOut : List Val)
    (hcall : c.Call (useArgs ins w r s) = .ok (acts, fOut)) :
    useServe c ins next w r s =
      match (match next with
        | some nextFn =>
          if !(localsAfter (useArgs ins w r s) acts).skipNext
          then nextFn w r (usePublished c ins w r s acts fOut)
          else .ok (usePublished c ins w r s acts fOut)
        | none => .ok (usePublished c ins w r s acts fOut)) with
      | .error e => .error e
      | .ok s3 =>
        match (localsAfter (useArgs ins w r s) acts).after with
        | some cb => .ok (s3.logRan c.name cb)
        | none => .ok s3 := by
  unfold useArgs storeOf at hcall
  simp only [useServe, hcall, usePublished, useArgs, storeOf, localsAfter, State.logRan,
    getValuesMap_trace, update_getValuesMap_kv]

theorem useServe_of_fault (c : Callable) (ins : List Ty) (next : Option HandlerFunc)
    (w : Writer) (r : Request) (s : State) (e : Fault)
    (hcall : c.Call (useArgs ins w r s) = .error e) :
    useServe c ins next w r s = .error e := by
  unfold useArgs storeOf at hcall
  simp only [useServe, hcall]

theorem handlerServe_of_call (c : Callable) (ins : List Ty)
    (w : Writer) (r : Request) (s : State) (acts : List Act) (fOut : List Val)
    (hcall : c.Call (handlerArgs ins w r s) = .ok (acts, fOut)) :
    handlerServe c ins w r s = .ok
      { kv := Function.update s.kv r (some (handlerPublish (storeOf r s) fOut)),
        trace := s.trace ++ callEvents c ins (handlerArgs ins w r s) acts fOut } := by
  unfold handlerArgs storeOf at hcall
  simp only [handlerServe, hcall, handlerArgs, storeOf, getValuesMap_trace,
    update_getValuesMap_kv]

theorem assignable_self (t : Ty) : t.AssignableTo t = true := by
  simp [Ty.AssignableTo]

theorem orZero_type (m : Store) (hwt : m.WellTyped) (t : Ty) : (orZero m t).type = t := by
  unfold orZero
  cases h : m t with
  | none => rfl
  | some v => exact hwt t v h

theorem useResolve_assignable (w : Writer) (r : Request) (m : Store) (hwt : m.WellTyped)
    (t : Ty) : ((useResolve w r m t).type).AssignableTo t = true := by
  unfold useResolve
  split_ifs with h1 h2 h3 h4
  · subst h1
    simp [Val.type, Ty.AssignableTo]
  · subst h2
    simp [Val.type, Ty.AssignableTo]
  · subst h3
    simp [Val.type, Ty.AssignableTo]
  · subst h4
    simp [Val.type, Ty.AssignableTo]
  · have := orZero_type m hwt t
    unfold orZero at this
    rw [this]
    exact assignable_self t

theorem handlerResolve_assignable (w : Writer) (r : Request) (m : Store)
    (hwt : m.WellTyped) (t : Ty) : ((handlerResolve w r m t).type).AssignableTo t = true := by
  unfold handlerResolve
  split_ifs with h1 h2
  · subst h1
    simp [Val.type, Ty.AssignableTo]
  · subst h2
    simp [Val.type, Ty.AssignableTo]
  · have := orZero_type m hwt t
    unfold orZero at this
    rw [this]
    exact assignable_self t

theorem useResolve_other (w : Writer) (r : Request) (m : Store) (t : Ty)
    (ht : t.builtin = false) : useResolve w r m t = orZero m t := by
  unfold useResolve orZero
  cases t <;> simp_all [Ty.builtin]

theorem handlerResolve_other (w : Writer) (r : Request) (m : Store) (t : Ty)
    (h1 : t ≠ responseType) (h2 : t ≠ requestType) : handlerResolve w r m t = orZero m t := by
  unfold handlerResolve orZero
  simp [h1, h2]

theorem plain_iff (c : Callable) :
    c.plain = true ↔ c.isNil = false ∧ c.typ.IsVariadic = false := by
  unfold Callable.plain
  cases c.isNil <;> cases c.typ.IsVariadic <;> simp

theorem Call_resolved (c : Callable) (hp : c.plain = true) (g : Ty → Val)
    (hg : ∀ t, ((g t).type).AssignableTo t = true) :
    c.Call (c.ins.map g) = .ok ((c.body (c.ins.map g)).acts, c.results (c.ins.map g)) := by
  rw [Call_ok_iff c ((plain_iff c).mp hp).1 ((plain_iff c).mp hp).2]
  refine ⟨by simp [Callable.ins], ?_, rfl, rfl⟩
  intro i hi
  have : (c.ins.map g).getD i (Zero (c.typ.In i)) = g (c.typ.In i) := by
    simp [Callable.ins, List.getD_eq_getElem?_getD, hi]
  rw [this]
  exact hg _

theorem helper_ok_iff (c c2 : Callable) (ins : List Ty) :
    helper (.func c) = .ok (c2, ins) ↔
      c2 = c ∧ ins = c.ins ∧ c.ins.Nodup ∧
        ((List.range c.typ.NumOut).map c.typ.Out).Nodup := by
  by_cases hin : ((List.range c.typ.NumIn).map c.typ.In).Nodup
  · by_cases hout : ((List.range c.typ.NumOut).map c.typ.Out).Nodup
    · rw [helper_accepts c hin hout]
      simp only [Except.ok.injEq, Prod.mk.injEq, Callable.ins]
      constructor
      · rintro ⟨h1, h2⟩
        exact ⟨h1.symm, h2.symm, hin, hout⟩
      · rintro ⟨h1, h2, _⟩
        exact ⟨h1.symm, h2.symm⟩
    · rw [helper_dupReturn c hin hout]
      constructor
      · intro h
        cases h
      · rintro ⟨_, _, _, h⟩
        exact absurd h hout
  · rw [helper_dupParam c hin]
    constructor
    · intro h
      cases h
    · rintro ⟨_, _, h, _⟩
      exact absurd h hin

theorem helper_ok_func (f : Iface) (c : Callable) (ins : List Ty)
    (h : helper f = .ok (c, ins)) : f = Iface.func c := by
  cases f with
  | nil => simp [helper] at h
  | nonFunc t x => simp [helper] at h
  | func c2 =>
    rw [helper_ok_iff] at h
    rw [h.1]

theorem foldl_perform_skipNext (fIn : List Val) (acts : List Act) (l : Locals) :
    (acts.foldl (perform fIn) l).skipNext =
      (l.skipNext || (decide (Act.stop ∈ acts) && decide (Val.stop ∈ fIn))) := by
  induction acts generalizing l with
  | nil => simp
  | cons a acts ih =>
    rw [List.foldl_cons, ih]
    cases a with
    | stop =>
      by_cases h : Val.stop ∈ fIn <;> simp [perform, h]
    | after g =>
      by_cases h : Val.after ∈ fIn <;> simp [perform, h]
    | emit e => simp [perform]

theorem localsAfter_skipNext (fIn : List Val) (acts : List Act) :
    (localsAfter fIn acts).skipNext = (decide (Act.stop ∈ acts) && decide (Val.stop ∈ fIn)) := by
  unfold localsAfter
  rw [foldl_perform_skipNext]
  simp

theorem stop_mem_useArgs (ins : List Ty) (w : Writer) (r : Request) (s : State)
    (h : stopChainType ∈ ins) : Val.stop ∈ useArgs ins w r s := by
  unfold useArgs
  rw [List.mem_map]
  exact ⟨stopChainType, h, by simp [useResolve]⟩

theorem Use_of_helper (f : Iface) (c : Callable) (ins : List Ty)
    (stage : Option HandlerFunc → HandlerFunc)
    (hf : helper f = .ok (c, ins)) (hUse : Use f = .ok stage) :
    stage = fun next => useServe c ins next := by
  simp only [Use, hf, Except.ok.injEq] at hUse
  exact hUse.symm

theorem Handler_of_helper (f : Iface) (c : Callable) (ins : List Ty) (h : HandlerFunc)
    (hf : helper f = .ok (c, ins)) (hH : Handler f = .ok h) :
    h = handlerServe c ins := by
  simp only [Handler, hf, Except.ok.injEq] at hH
  exact hH.symm

theorem callNames_append (a b : List Event) : callNames (a ++ b) = callNames a ++ callNames b := by
  induction a with
  | nil => rfl
  | cons e a ih => cases e <;> simp [callNames, ih]

theorem callNames_callEvents (c : Callable) (ins : List Ty) (fIn : List Val) (acts : List Act)
    (fOut : List Val) : callNames (callEvents c ins fIn acts fOut) = [c.name] := by
  unfold callEvents
  simp only [callNames, callNames_append, List.cons.injEq, true_and]
  have : ∀ l : List Act, callNames (effects l) = [] := by
    intro l
    induction l with
    | nil => rfl
    | cons a l ih => cases a <;> simp [effects, callNames, ih]
  simp [this, callNames]

/-- C8: when the body of a chainable stage, handed its `StopChain` capability, calls it
(once or several times) before returning, the stage returns the same result whatever
its next step is, so the next step (every later stage, the terminal one included) is
not invoked; the returned values are published, the only function value called is the
stage's own, and the callback left in the after-slot, if any, is still invoked. -/
theorem C8_stop_skips_rest (f : Iface) (c : Callable) (ins : List Ty)
    (stage : Option HandlerFunc → HandlerFunc)
    (hf : helper f = .ok (c, ins)) (hUse : Use f = .ok stage)
    (w : Writer) (r : Request) (s : State) (acts : List Act) (fOut : List Val)
    (hcall : c.Call (useArgs ins w r s) = .ok (acts, fOut))
    (hdecl : stopChainType ∈ ins) (hstop : Act.stop ∈ acts) :
    ∀ next : Option HandlerFunc,
      ∃ s2, stage next w r s = .ok s2 ∧
        storeOf r s2 = usePublish (storeOf r s) fOut ∧
        callNames s2.trace = callNames s.trace ++ [c.name] ∧
        s2 = (match (localsAfter (useArgs ins w r s) acts).after with
          | some cb => (usePublished c ins w r s acts fOut).logRan c.name cb
          | none => usePublished c ins w r s acts fOut) := by
  intro next
  have hskip : (localsAfter (useArgs ins w r s) acts).skipNext = true := by
    rw [localsAfter_skipNext]
    simp [hstop, stop_mem_useArgs ins w r s hdecl]
  rw [Use_of_helper f c ins stage hf hUse]
  simp only [useServe_of_call c ins next w r s acts fOut hcall, hskip]
  cases hslot : (localsAfter (useArgs ins w r s) acts).after with
  | none =>
    cases next <;>
      simp [usePublished, storeOf, getValuesMap, callNames_append, callNames_callEvents]
  | some cb =>
    have hran : callNames [Event.ran c.name cb] = [] := rfl
    cases next <;>
      simp [usePublished, State.logRan, storeOf, getValuesMap, callNames_append,
        callNames_callEvents, hran]

/-- Witness of C8 on a stage that stops twice and registers a callback, run on a new
request. -/
theorem C8_stop_skips_rest_witness :
    (helper (.func stopper) = .ok (stopper, stopper.ins) ∧
      Use (.func stopper) = .ok (fun next => useServe stopper stopper.ins next) ∧
      stopper.Call (useArgs stopper.ins exampleWriter 0 State.fresh) =
        .ok ([Act.stop, Act.after (some 7), Act.emit 9, Act.stop], [Val.data (Ty.other 5) 41]) ∧
      stopChainType ∈ stopper.ins ∧
      Act.stop ∈ [Act.stop, Act.after (some 7), Act.emit 9, Act.stop]) ∧
    ∀ next : Option HandlerFunc,
      ∃ s2, useServe stopper stopper.ins next exampleWriter 0 State.fresh = .ok s2 ∧
        storeOf 0 s2 = usePublish (storeOf 0 State.fresh) [Val.data (Ty.other 5) 41] ∧
        callNames s2.trace = callNames State.fresh.trace ++ [stopper.name] ∧
        s2 = (match (localsAfter (useArgs stopper.ins exampleWriter 0 State.fresh)
            [Act.stop, Act.after (some 7), Act.emit 9, Act.stop]).after with
          | some cb => (usePublished stopper stopper.ins exampleWriter 0 State.fresh
              [Act.stop, Act.after (some 7), Act.emit 9, Act.stop]
              [Val.data (Ty.other 5) 41]).logRan stopper.name cb
          | none => usePublished stopper stopper.ins exampleWriter 0 State.fresh
              [Act.stop, Act.after (some 7), Act.emit 9, Act.stop]
              [Val.data (Ty.other 5) 41]) :=
  ⟨⟨rfl, rfl, rfl, by decide, by decide⟩,
    C8_stop_skips_rest (.func stopper) stopper stopper.ins
      (fun next => useServe stopper stopper.ins next) rfl rfl exampleWriter 0 State.fresh
      [Act.stop, Act.after (some 7), Act.emit 9, Act.stop] [Val.data (Ty.other 5) 41]
      rfl (by decide) (by decide)⟩

/-- C10: in a chainable stage invocation whose body has returned with a callback `cb` in
the after-slot, the stage invokes `cb` exactly once, as its last step: when the next
step runs, after the next step has returned (the result is the state the next step
returned, with the one invocation of `cb` appended); when no next step runs because
the stop-flag is set or `next` is nil, right after publication, and the stage does not
fail.  A fault of the next step propagates. -/
theorem C10_after_callback_once (f : Iface) (c : Callable) (ins : List Ty)
    (stage : Option HandlerFunc → HandlerFunc)
    (hf : helper f = .ok (c, ins)) (hUse : Use f = .ok stage)
    (w : Writer) (r : Request) (s : State) (acts : List Act) (fOut : List Val)
    (hcall : c.Call (useArgs ins w r s) = .ok (acts, fOut)) (cb : Nat)
    (hslot : (localsAfter (useArgs ins w r s) acts).after = some cb) :
    (∀ (nextFn : HandlerFunc) (s3 : State),
        (localsAfter (useArgs ins w r s) acts).skipNext = false →
        nextFn w r (usePublished c ins w r s acts fOut) = .ok s3 →
        stage (some nextFn) w r s = .ok (s3.logRan c.name cb)) ∧
      (∀ (nextFn : HandlerFunc) (e : Fault),
        (localsAfter (useArgs ins w r s) acts).skipNext = false →
        nextFn w r (usePublished c ins w r s acts fOut) = .error e →
        stage (some nextFn) w r s = .error e) ∧
      (∀ next : Option HandlerFunc,
        (next = none ∨ (localsAfter (useArgs ins w r s) acts).skipNext = true) →
        stage next w r s = .ok ((usePublished c ins w r s acts fOut).logRan c.name cb)) := by
  rw [Use_of_helper f c ins stage hf hUse]
  refine ⟨?_, ?_, ?_⟩
  · intro nextFn s3 hskip hnext
    simp only [useServe_of_call c ins _ w r s acts fOut hcall, hskip, hnext, hslot]
    rfl
  · intro nextFn e hskip hnext
    simp only [useServe_of_call c ins _ w r s acts fOut hcall, hskip, hnext]
    rfl
  · intro next hnext
    rcases hnext with hnone | hskip
    · subst hnone
      simp only [useServe_of_call c ins _ w r s acts fOut hcall, hslot]
    · cases next with
      | none => simp only [useServe_of_call c ins _ w r s acts fOut hcall, hslot]
      | some nextFn =>
        simp only [useServe_of_call c ins _ w r s acts fOut hcall, hskip, hslot]
        rfl

/-- Witness of C10 on the example chain: the second stage, run after the first one with
the terminal handler as its next step, invokes its timing callback once, at the very
end of the log, after the handler has written the body. -/
theorem C10_after_callback_once_witness :
    (helper (.func exampleStage2) = .ok (exampleStage2, exampleStage2.ins) ∧
      Use (.func exampleStage2) = .ok (fun next => useServe exampleStage2 exampleStage2.ins next) ∧
      exampleStage2.Call (useArgs exampleStage2.ins exampleWriter 0 exampleAfterStage1) =
        .ok ([Act.after (some 100)], []) ∧
      (localsAfter (useArgs exampleStage2.ins exampleWriter 0 exampleAfterStage1)
        [Act.after (some 100)]).after = some 100 ∧
      (localsAfter (useArgs exampleStage2.ins exampleWriter 0 exampleAfterStage1)
        [Act.after (some 100)]).skipNext = false ∧
      handlerServe exampleHello exampleHello.ins exampleWriter 0
        (usePublished exampleStage2 exampleStage2.ins exampleWriter 0 exampleAfterStage1
          [Act.after (some 100)] []) = .ok exampleAfterHello) ∧
    useServe exampleStage2 exampleStage2.ins
        (some (handlerServe exampleHello exampleHello.ins)) exampleWriter 0
        exampleAfterStage1 = .ok (exampleAfterHello.logRan 2 100) ∧
    (exampleAfterHello.logRan 2 100).trace =
      exampleAfterHello.trace ++ [Event.ran 2 100] :=
  ⟨⟨rfl, rfl, rfl, rfl, rfl, by
      rw [handlerServe_of_call exampleHello exampleHello.ins exampleWriter 0 _
        [Act.emit 1] [] rfl]
      rfl⟩,
    (C10_after_callback_once (.func exampleStage2) exampleStage2 exampleStage2.ins
      (fun next => useServe exampleStage2 exampleStage2.ins next) rfl rfl exampleWriter 0
      exampleAfterStage1 [Act.after (some 100)] [] rfl 100 rfl).1
      (handlerServe exampleHello exampleHello.ins) exampleAfterHello rfl (by
        rw [handlerServe_of_call exampleHello exampleHello.ins exampleWriter 0 _
          [Act.emit 1] [] rfl]
        rfl),
    rfl⟩

theorem mem_callEvents_call (c : Callable) (ins : List Ty) (fIn : List Val) (acts : List Act)
    (fOut : List Val) : Event.call c.name ins fIn ∈ callEvents c ins fIn acts fOut := by
  simp [callEvents]

/-- For a function value that is neither nil nor variadic, a missing dependency is not
an error: a declared parameter whose type is not a built-in capability of the stage and
has no entry in the store receives the zero value of its type, the function value is
invoked, and the stage raises no fault of its own. -/
theorem missing_dependency_zero (f : Iface) (c : Callable) (hp : c.plain = true)
    (ins : List Ty)
    (stage : Option HandlerFunc → HandlerFunc) (h : HandlerFunc)
    (hf : helper f = .ok (c, ins)) (hUse : Use f = .ok stage) (hH : Handler f = .ok h)
    (w : Writer) (r : Request) (s : State) (hwt : (storeOf r s).WellTyped)
    (i : Nat) (t : Ty) (hi : ins[i]? = some t) (hmiss : storeOf r s t = none) :
    (t.builtin = false →
      (useArgs ins w r s)[i]? = some (Zero t) ∧
      ∃ acts fOut, c.Call (useArgs ins w r s) = .ok (acts, fOut) ∧
        (∃ s2, stage none w r s = .ok s2 ∧
          Event.call c.name ins (useArgs ins w r s) ∈ s2.trace) ∧
        (∀ next e, stage next w r s = .error e →
          ∃ nextFn, next = some nextFn ∧
            nextFn w r (usePublished c ins w r s acts fOut) = .error e)) ∧
    (t ≠ responseType → t ≠ requestType →
      (handlerArgs ins w r s)[i]? = some (Zero t) ∧
      ∃ s2, h w r s = .ok s2 ∧ Event.call c.name ins (handlerArgs ins w r s) ∈ s2.trace) := by
  have hfunc := helper_ok_func f c ins hf
  subst hfunc
  have hins : ins = c.ins := ((helper_ok_iff c c ins).mp hf).2.1
  subst hins
  rw [Use_of_helper _ c c.ins stage hf hUse, Handler_of_helper _ c c.ins h hf hH]
  constructor
  · intro hb
    have harg : (useArgs c.ins w r s)[i]? = some (Zero t) := by
      simp only [useArgs, List.getElem?_map, hi, Option.map_some']
      rw [useResolve_other w r _ t hb]
      simp [orZero, hmiss]
    have hcall : c.Call (useArgs c.ins w r s) = .ok ((c.body (useArgs c.ins w r s)).acts,
        c.results (useArgs c.ins w r s)) :=
      Call_resolved c hp _ (useResolve_assignable w r _ hwt)
    refine ⟨harg, _, _, hcall, ?_, ?_⟩
    · simp only [useServe_of_call c c.ins none w r s _ _ hcall]
      cases (localsAfter (useArgs c.ins w r s) (c.body (useArgs c.ins w r s)).acts).after with
      | none =>
        exact ⟨_, rfl, by
          simp only [usePublished]
          exact List.mem_append_right _ (mem_callEvents_call _ _ _ _ _)⟩
      | some cb =>
        exact ⟨_, rfl, by
          simp only [usePublished, State.logRan]
          exact List.mem_append_left _
            (List.mem_append_right _ (mem_callEvents_call _ _ _ _ _))⟩
    · intro next e herr
      simp only [useServe_of_call c c.ins next w r s _ _ hcall] at herr
      cases next with
      | none =>
        cases hl : (localsAfter (useArgs c.ins w r s)
            (c.body (useArgs c.ins w r s)).acts).after <;> simp [hl] at herr
      | some nextFn =>
        refine ⟨nextFn, rfl, ?_⟩
        cases hs : (localsAfter (useArgs c.ins w r s)
            (c.body (useArgs c.ins w r s)).acts).skipNext with
        | true =>
          cases hl : (localsAfter (useArgs c.ins w r s)
              (c.body (useArgs c.ins w r s)).acts).after <;> simp [hs, hl] at herr
        | false =>
          cases hn : nextFn w r (usePublished c c.ins w r s
              (c.body (useArgs c.ins w r s)).acts (c.results (useArgs c.ins w r s))) with
          | error e2 =>
            simp [hs, hn] at herr
            rw [herr]
          | ok s3 =>
            cases hl : (localsAfter (useArgs c.ins w r s)
                (c.body (useArgs c.ins w r s)).acts).after <;> simp [hs, hn, hl] at herr
  · intro h1 h2
    have harg : (handlerArgs c.ins w r s)[i]? = some (Zero t) := by
      simp only [handlerArgs, List.getElem?_map, hi, Option.map_some']
      rw [handlerResolve_other w r _ t h1 h2]
      simp [orZero, hmiss]
    have hcall : c.Call (handlerArgs c.ins w r s) =
        .ok ((c.body (handlerArgs c.ins w r s)).acts, c.results (handlerArgs c.ins w r s)) :=
      Call_resolved c hp _ (handlerResolve_assignable w r _ hwt)
    refine ⟨harg, _, handlerServe_of_call c c.ins w r s _ _ hcall, ?_⟩
    exact List.mem_append_right _ (mem_callEvents_call _ _ _ _ _)

/-! ### Publication and the log -/

theorem usePublish_cons (m : Store) (v : Val) (vs : List Val) :
    usePublish m (v :: vs) =
      usePublish (if v.type.builtin = true then m else Function.update m v.type (some v)) vs := by
  unfold usePublish
  rw [List.foldl_cons]
  congr 1
  cases h : v.type <;> simp [Ty.builtin]

theorem usePublish_builtin (m : Store) (fOut : List Val) (t : Ty) (ht : t.builtin = true) :
    usePublish m fOut t = m t := by
  induction fOut generalizing m with
  | nil => rfl
  | cons v vs ih =>
    rw [usePublish_cons, ih]
    split_ifs with hv
    · rfl
    · have hne : t ≠ v.type := by
        intro h
        exact hv (h ▸ ht)
      exact Function.update_noteq hne _ _

theorem handlerPublish_eq (m : Store) (vs : List Val) : handlerPublish m vs = usePublish m vs :=
  rfl

theorem usePublish_nil (m : Store) : usePublish m [] = m := rfl

theorem usePublish_lookup (m : Store) (vs : List Val) (t : Ty) (ht : t.builtin = false) :
    usePublish m vs t =
      match (vs.filter (fun v => decide (v.type = t))).getLast? with
      | some v => some v
      | none => m t := by
  induction vs generalizing m with
  | nil => rfl
  | cons v vs ih =>
    rw [usePublish_cons, ih]
    by_cases hv : v.type = t
    · subst hv
      have hb : ¬ (v.type.builtin = true) := by simp [ht]
      have hf : (v :: vs).filter (fun x => decide (x.type = v.type)) =
          v :: vs.filter (fun x => decide (x.type = v.type)) := by
        simp [List.filter_cons]
      rw [hf, if_neg hb]
      cases hl : (vs.filter (fun x => decide (x.type = v.type))).getLast? with
      | none =>
        rw [List.getLast?_eq_none_iff] at hl
        simp [hl]
      | some x =>
        have : (v :: vs.filter (fun x => decide (x.type = v.type))).getLast? = some x := by
          rw [List.getLast?_cons, hl]
          rfl
        simp [this]
    · have hne : (if v.type.builtin = true then m else Function.update m v.type (some v)) t = m t := by
        split_ifs
        · rfl
        · exact Function.update_noteq (fun h => hv h.symm) _ _
      simp only [List.filter_cons, hv, decide_False, hne]
      rfl

theorem usePublish_wellTyped (m : Store) (hm : m.WellTyped) (vs : List Val) :
    (usePublish m vs).WellTyped := by
  induction vs generalizing m with
  | nil => exact hm
  | cons v vs ih =>
    rw [usePublish_cons]
    apply ih
    split_ifs
    · exact hm
    · intro t x hx
      by_cases ht : t = v.type
      · subst ht
        simp at hx
        rw [← hx]
      · rw [Function.update_noteq ht] at hx
        exact hm t x hx

theorem replay_append (m : Store) (a b : List Event) :
    replay m (a ++ b) = replay (replay m a) b := by
  induction a generalizing m with
  | nil => rfl
  | cons e a ih => cases e <;> simp [replay, ih]

theorem consistent_append (w : Writer) (r : Request) (m : Store) (a b : List Event) :
    consistent w r m (a ++ b) ↔ consistent w r m a ∧ consistent w r (replay m a) b := by
  induction a generalizing m with
  | nil => simp [consistent, replay]
  | cons e a ih => cases e <;> simp [consistent, replay, ih, and_assoc]

theorem returned_append (a b : List Event) : returned (a ++ b) = returned a ++ returned b := by
  induction a with
  | nil => rfl
  | cons e a ih => cases e <;> simp [returned, ih]

theorem replay_effects (m : Store) (acts : List Act) : replay m (effects acts) = m := by
  induction acts with
  | nil => rfl
  | cons a acts ih => cases a <;> simp [effects, replay, ih]

theorem consistent_effects (w : Writer) (r : Request) (m : Store) (acts : List Act) :
    consistent w r m (effects acts) := by
  induction acts with
  | nil => trivial
  | cons a acts ih => cases a <;> simp [effects, consistent, ih]

theorem replay_callEvents (m : Store) (c : Callable) (ins : List Ty) (fIn : List Val)
    (acts : List Act) (fOut : List Val) :
    replay m (callEvents c ins fIn acts fOut) = usePublish m fOut := by
  simp [callEvents, replay, replay_append, replay_effects]

theorem consistent_callEvents (w : Writer) (r : Request) (m : Store) (c : Callable)
    (ins : List Ty) (fIn : List Val) (acts : List Act) (fOut : List Val) :
    consistent w r m (callEvents c ins fIn acts fOut) ↔
      List.Forall₂ (fun t a => a = useResolve w r m t ∨ a = handlerResolve w r m t)
          ins fIn ∧
        (fOut.map Val.type).Nodup := by
  simp [callEvents, consistent, consistent_append, consistent_effects, replay_effects]

theorem replay_wellTyped (m : Store) (hm : m.WellTyped) (tr : List Event) :
    (replay m tr).WellTyped := by
  induction tr generalizing m with
  | nil => exact hm
  | cons e tr ih =>
    cases e with
    | ret n vals => exact ih _ (usePublish_wellTyped m hm vals)
    | call n ps args => exact ih m hm
    | emit x => exact ih m hm
    | ran n cb => exact ih m hm

theorem replay_lookup (m : Store) (tr : List Event) (t : Ty) (ht : t.builtin = false) :
    replay m tr t =
      match lastProduced t tr with
      | some v => some v
      | none => m t := by
  induction tr generalizing m with
  | nil => rfl
  | cons e tr ih =>
    cases e with
    | call n ps args => exact ih m
    | emit x => exact ih m
    | ran n cb => exact ih m
    | ret n vals =>
      have h1 : replay m (Event.ret n vals :: tr) = replay (usePublish m vals) tr := rfl
      rw [h1, ih, usePublish_lookup m vals t ht]
      unfold lastProduced
      simp only [returned, List.filter_append, List.getLast?_append]
      cases (List.filter (fun v => decide (v.type = t)) (returned tr)).getLast? with
      | none => simp
      | some x => simp

theorem orZero_replay (m : Store) (tr : List Event) (t : Ty) (ht : t.builtin = false) :
    orZero (replay m tr) t =
      match lastProduced t tr with
      | some v => v
      | none => orZero m t := by
  unfold orZero
  rw [replay_lookup m tr t ht]
  cases lastProduced t tr <;> rfl

theorem storeOf_update (kv : Request → Option Store) (tr : List Event) (r : Request)
    (m : Store) : storeOf r { kv := Function.update kv r (some m), trace := tr } = m := by
  simp [storeOf, getValuesMap]

theorem storeOf_logRan (s : State) (r : Request) (n cb : Nat) :
    storeOf r (s.logRan n cb) = storeOf r s := by
  simp only [storeOf, getValuesMap, State.logRan]
  cases s.kv r <;> rfl

/-! ### Chains -/

theorem continued_eq (next : Option HandlerFunc) (b : Bool) (w : Writer) (r : Request)
    (s2 : State) :
    (match next with
      | some nextFn => if !b then nextFn w r s2 else .ok s2
      | none => .ok s2) = if b then .ok s2 else serve next w r s2 := by
  cases next <;> cases b <;> simp [serve]

theorem useServe_run (c : Callable) (ins : List Ty) (next : Option HandlerFunc)
    (w : Writer) (r : Request) (s : State) (acts : List Act) (fOut : List Val)
    (hcall : c.Call (useArgs ins w r s) = .ok (acts, fOut)) :
    useServe c ins next w r s =
      match (if (localsAfter (useArgs ins w r s) acts).skipNext
          then .ok (usePublished c ins w r s acts fOut)
          else serve next w r (usePublished c ins w r s acts fOut)) with
      | .error e => .error e
      | .ok s3 =>
        match (localsAfter (useArgs ins w r s) acts).after with
        | some cb => .ok (s3.logRan c.name cb)
        | none => .ok s3 := by
  rw [useServe_of_call c ins next w r s acts fOut hcall, continued_eq]

theorem handlerServe_of_fault (c : Callable) (ins : List Ty) (w : Writer) (r : Request)
    (s : State) (e : Fault) (hcall : c.Call (handlerArgs ins w r s) = .error e) :
    handlerServe c ins w r s = .error e := by
  unfold handlerArgs storeOf at hcall
  simp only [handlerServe, hcall]

theorem handlerServe_ok_frame (c : Callable) (ins : List Ty) (w : Writer) (r : Request)
    (s s2 : State) (h : handlerServe c ins w r s = .ok s2) :
    ∃ acts fOut, c.Call (handlerArgs ins w r s) = .ok (acts, fOut) ∧
      s2 = { kv := Function.update s.kv r (some (handlerPublish (storeOf r s) fOut)),
             trace := s.trace ++ callEvents c ins (handlerArgs ins w r s) acts fOut } := by
  cases hcall : c.Call (handlerArgs ins w r s) with
  | error e =>
    rw [handlerServe_of_fault c ins w r s e hcall] at h
    cases h
  | ok p =>
    obtain ⟨acts, fOut⟩ := p
    rw [handlerServe_of_call c ins w r s acts fOut hcall] at h
    simp only [Except.ok.injEq] at h
    exact ⟨acts, fOut, rfl, h.symm⟩

theorem handlerServe_ok_inv (c : Callable) (ins : List Ty) (w : Writer) (r : Request)
    (s s2 : State) (h : handlerServe c ins w r s = .ok s2) :
    ∃ acts fOut, s2.trace = s.trace ++ callEvents c ins (handlerArgs ins w r s) acts fOut := by
  cases hcall : c.Call (handlerArgs ins w r s) with
  | error e =>
    have hcall2 := hcall
    unfold handlerArgs storeOf at hcall2
    simp [handlerServe, hcall2] at h
  | ok p =>
    obtain ⟨acts, fOut⟩ := p
    rw [handlerServe_of_call c ins w r s acts fOut hcall] at h
    simp only [Except.ok.injEq] at h
    exact ⟨acts, fOut, by rw [← h]⟩

theorem useServe_ok_inv (c : Callable) (ins : List Ty) (next : Option HandlerFunc)
    (w : Writer) (r : Request) (s s2 : State) (h : useServe c ins next w r s = .ok s2) :
    ∃ acts fOut s3, c.Call (useArgs ins w r s) = .ok (acts, fOut) ∧
      (((localsAfter (useArgs ins w r s) acts).skipNext = true ∧
          s3 = usePublished c ins w r s acts fOut) ∨
        ((localsAfter (useArgs ins w r s) acts).skipNext = false ∧
          serve next w r (usePublished c ins w r s acts fOut) = .ok s3)) ∧
      s2 = (match (localsAfter (useArgs ins w r s) acts).after with
        | some cb => s3.logRan c.name cb
        | none => s3) := by
  cases hcall : c.Call (useArgs ins w r s) with
  | error e =>
    rw [useServe_of_fault c ins next w r s e hcall] at h
    cases h
  | ok p =>
    obtain ⟨acts, fOut⟩ := p
    rw [useServe_run c ins next w r s acts fOut hcall] at h
    refine ⟨acts, fOut, ?_⟩
    cases hskip : (localsAfter (useArgs ins w r s) acts).skipNext with
    | true =>
      refine ⟨usePublished c ins w r s acts fOut, rfl, Or.inl ⟨rfl, rfl⟩, ?_⟩
      simp only [hskip, if_true] at h
      cases hslot : (localsAfter (useArgs ins w r s) acts).after with
      | none =>
        simp only [hslot, Except.ok.injEq] at h
        exact h.symm
      | some cb =>
        simp only [hslot, Except.ok.injEq] at h
        exact h.symm
    | false =>
      simp only [hskip] at h
      cases hnext : serve next w r (usePublished c ins w r s acts fOut) with
      | error e => simp [hnext] at h
      | ok s3 =>
        refine ⟨s3, rfl, Or.inr ⟨rfl, rfl⟩, ?_⟩
        cases hslot : (localsAfter (useArgs ins w r s) acts).after with
        | none =>
          simp only [hnext, hslot, Except.ok.injEq] at h
          simpa using h.symm
        | some cb =>
          simp only [hnext, hslot, Except.ok.injEq] at h
          simpa using h.symm

theorem logRan_trace (s3 : State) (name : Nat) (slot : Option Nat) :
    (match slot with
      | some cb => s3.logRan name cb
      | none => s3).trace = s3.trace ++ ranPart name slot := by
  cases slot <;> simp [State.logRan, ranPart]

theorem forall2_useArgs (w : Writer) (r : Request) (m : Store) (ins : List Ty) :
    List.Forall₂ (fun t a => a = useResolve w r m t ∨ a = handlerResolve w r m t) ins
      (ins.map (useResolve w r m)) := by
  induction ins with
  | nil => exact List.Forall₂.nil
  | cons t ins ih => exact List.Forall₂.cons (Or.inl rfl) ih

theorem forall2_handlerArgs (w : Writer) (r : Request) (m : Store) (ins : List Ty) :
    List.Forall₂ (fun t a => a = useResolve w r m t ∨ a = handlerResolve w r m t) ins
      (ins.map (handlerResolve w r m)) := by
  induction ins with
  | nil => exact List.Forall₂.nil
  | cons t ins ih => exact List.Forall₂.cons (Or.inr rfl) ih

theorem results_types (c : Callable) (fIn : List Val) :
    (c.results fIn).map Val.type = (List.range c.typ.NumOut).map c.typ.Out := by
  simp [Callable.results, Val.type, Function.comp_def]

theorem run_consistent (w : Writer) (r : Request) (m0 : Store)
    (lc : Option Callable) (hlc : ∀ c ∈ lc, c.accepted) (cs : List Callable)
    (hcs : ∀ c ∈ cs, c.accepted) (s s2 : State)
    (hrun : serve (compile (stagesOf cs) (terminalOf lc)) w r s = .ok s2)
    (hst : storeOf r s = replay m0 s.trace) (hco : consistent w r m0 s.trace) :
    (∃ ext, s2.trace = s.trace ++ ext) ∧
      storeOf r s2 = replay m0 s2.trace ∧ consistent w r m0 s2.trace := by
  induction cs generalizing s s2 with
  | nil =>
    cases lc with
    | none =>
      have : s2 = s := by
        simp only [stagesOf, terminalOf, List.map_nil, compile, Option.map_none', serve,
          Except.ok.injEq] at hrun
        exact hrun.symm
      subst this
      exact ⟨⟨[], by simp⟩, hst, hco⟩
    | some c =>
      have hrun2 : handlerServe c c.ins w r s = .ok s2 := hrun
      obtain ⟨acts, fOut, hcall, hs2⟩ := handlerServe_ok_frame c c.ins w r s s2 hrun2
      obtain ⟨_, _, hfOut⟩ := Call_ok_shape c _ acts fOut hcall
      subst hs2
      refine ⟨⟨_, rfl⟩, ?_, ?_⟩
      · rw [storeOf_update, handlerPublish_eq, replay_append, replay_callEvents, hst]
      · rw [consistent_append, consistent_callEvents]
        refine ⟨hco, ?_, ?_⟩
        · rw [← hst]
          exact forall2_handlerArgs w r _ c.ins
        · rw [hfOut, results_types]
          exact (hlc c rfl).2
  | cons c cs ih =>
    have hrun2 : useServe c c.ins (compile (stagesOf cs) (terminalOf lc)) w r s = .ok s2 := hrun
    obtain ⟨acts, fOut, s3, hcall, hor, hs2⟩ := useServe_ok_inv c c.ins _ w r s s2 hrun2
    obtain ⟨_, _, hfOut⟩ := Call_ok_shape c _ acts fOut hcall
    have hst2 : storeOf r (usePublished c c.ins w r s acts fOut) =
        replay m0 (usePublished c c.ins w r s acts fOut).trace := by
      simp only [usePublished]
      rw [storeOf_update, replay_append, replay_callEvents, hst]
    have hco2 : consistent w r m0 (usePublished c c.ins w r s acts fOut).trace := by
      simp only [usePublished]
      rw [consistent_append, consistent_callEvents]
      refine ⟨hco, ?_, ?_⟩
      · rw [← hst]
        exact forall2_useArgs w r _ c.ins
      · rw [hfOut, results_types]
        exact (hcs c (List.mem_cons_self _ _)).2
    have htr2 : (usePublished c c.ins w r s acts fOut).trace = s.trace ++
        callEvents c c.ins (useArgs c.ins w r s) acts fOut := rfl
    have h3 : (∃ ext, s3.trace = s.trace ++ ext) ∧
        storeOf r s3 = replay m0 s3.trace ∧ consistent w r m0 s3.trace := by
      rcases hor with ⟨_, hs3⟩ | ⟨_, hs3⟩
      · subst hs3
        exact ⟨⟨_, htr2⟩, hst2, hco2⟩
      · obtain ⟨⟨ext3, hext3⟩, hst3, hco3⟩ :=
          ih (fun x hx => hcs x (List.mem_cons_of_mem _ hx)) _ _ hs3 hst2 hco2
        refine ⟨⟨callEvents c c.ins (useArgs c.ins w r s) acts fOut ++ ext3, ?_⟩, hst3, hco3⟩
        rw [hext3, htr2, List.append_assoc]
    obtain ⟨⟨ext4, hext4⟩, hst4, hco4⟩ := h3
    rw [hs2]
    cases (localsAfter (useArgs c.ins w r s) acts).after with
    | none => exact ⟨⟨ext4, hext4⟩, hst4, hco4⟩
    | some cb =>
      refine ⟨⟨ext4 ++ [Event.ran c.name cb], ?_⟩, ?_, ?_⟩
      · simp [State.logRan, hext4]
      · show storeOf r (s3.logRan c.name cb) = replay m0 (s3.logRan c.name cb).trace
        rw [storeOf_logRan, hst4]
        simp [State.logRan, replay_append, replay]
      · simp [State.logRan, consistent_append, consistent, hco4]

theorem run_wellTyped (w : Writer) (r : Request) (lc : Option Callable)
    (hlp : ∀ c ∈ lc, c.plain = true) (cs : List Callable)
    (hcp : ∀ c ∈ cs, c.plain = true) (s : State) (hwt : (storeOf r s).WellTyped) :
    ∃ s2, serve (compile (stagesOf cs) (terminalOf lc)) w r s = .ok s2 ∧
      (storeOf r s2).WellTyped := by
  induction cs generalizing s with
  | nil =>
    cases lc with
    | none => exact ⟨s, rfl, hwt⟩
    | some c =>
      have hcall : c.Call (handlerArgs c.ins w r s) =
          .ok ((c.body (handlerArgs c.ins w r s)).acts, c.results (handlerArgs c.ins w r s)) :=
        Call_resolved c (hlp c rfl) _ (handlerResolve_assignable w r _ hwt)
      refine ⟨_, handlerServe_of_call c c.ins w r s _ _ hcall, ?_⟩
      rw [storeOf_update, handlerPublish_eq]
      exact usePublish_wellTyped _ hwt _
  | cons c cs ih =>
    have hcall : c.Call (useArgs c.ins w r s) =
        .ok ((c.body (useArgs c.ins w r s)).acts, c.results (useArgs c.ins w r s)) :=
      Call_resolved c (hcp c (List.mem_cons_self _ _)) _ (useResolve_assignable w r _ hwt)
    have hpub : (storeOf r (usePublished c c.ins w r s (c.body (useArgs c.ins w r s)).acts
        (c.results (useArgs c.ins w r s)))).WellTyped := by
      simp only [usePublished]
      rw [storeOf_update]
      exact usePublish_wellTyped _ hwt _
    obtain ⟨s3, hs3, hwt3⟩ := ih (fun x hx => hcp x (List.mem_cons_of_mem _ hx)) _ hpub
    have hserve : serve (compile (stagesOf (c :: cs)) (terminalOf lc)) w r s =
        useServe c c.ins (compile (stagesOf cs) (terminalOf lc)) w r s := rfl
    rw [hserve, useServe_run c c.ins _ w r s _ _ hcall]
    have hcont : ∃ s4, (if (localsAfter (useArgs c.ins w r s)
          (c.body (useArgs c.ins w r s)).acts).skipNext
        then Except.ok (usePublished c c.ins w r s (c.body (useArgs c.ins w r s)).acts
          (c.results (useArgs c.ins w r s)))
        else serve (compile (stagesOf cs) (terminalOf lc)) w r
          (usePublished c c.ins w r s (c.body (useArgs c.ins w r s)).acts
            (c.results (useArgs c.ins w r s)))) = .ok s4 ∧
        (storeOf r s4).WellTyped := by
      cases (localsAfter (useArgs c.ins w r s) (c.body (useArgs c.ins w r s)).acts).skipNext with
      | true =>
        exact ⟨usePublished c c.ins w r s (c.body (useArgs c.ins w r s)).acts
          (c.results (useArgs c.ins w r s)), by simp, hpub⟩
      | false => exact ⟨s3, by simpa using hs3, hwt3⟩
    obtain ⟨s4, hs4, hwt4⟩ := hcont
    rw [hs4]
    cases (localsAfter (useArgs c.ins w r s) (c.body (useArgs c.ins w r s)).acts).after with
    | none => exact ⟨s4, rfl, hwt4⟩
    | some cb =>
      refine ⟨s4.logRan c.name cb, rfl, ?_⟩
      rw [storeOf_logRan]
      exact hwt4

theorem run_wellTyped_of_ok (w : Writer) (r : Request) (lc : Option Callable)
    (cs : List Callable) (s s2 : State)
    (hrun : serve (compile (stagesOf cs) (terminalOf lc)) w r s = .ok s2)
    (hwt : (storeOf r s).WellTyped) : (storeOf r s2).WellTyped := by
  induction cs generalizing s s2 with
  | nil =>
    cases lc with
    | none =>
      have : s2 = s := by
        simp only [stagesOf, terminalOf, List.map_nil, compile, Option.map_none', serve,
          Except.ok.injEq] at hrun
        exact hrun.symm
      subst this
      exact hwt
    | some c =>
      have hrun2 : handlerServe c c.ins w r s = .ok s2 := hrun
      obtain ⟨acts, fOut, _, hs2⟩ := handlerServe_ok_frame c c.ins w r s s2 hrun2
      rw [hs2, storeOf_update, handlerPublish_eq]
      exact usePublish_wellTyped _ hwt _
  | cons c cs ih =>
    have hrun2 : useServe c c.ins (compile (stagesOf cs) (terminalOf lc)) w r s = .ok s2 := hrun
    obtain ⟨acts, fOut, s3, _, hor, hs2⟩ := useServe_ok_inv c c.ins _ w r s s2 hrun2
    have hpub : (storeOf r (usePublished c c.ins w r s acts fOut)).WellTyped := by
      simp only [usePublished]
      rw [storeOf_update]
      exact usePublish_wellTyped _ hwt _
    have h3 : (storeOf r s3).WellTyped := by
      rcases hor with ⟨_, h⟩ | ⟨_, h⟩
      · rw [h]
        exact hpub
      · exact ih _ _ h hpub
    rw [hs2]
    cases (localsAfter (useArgs c.ins w r s) acts).after with
    | none => exact h3
    | some cb =>
      show (storeOf r (s3.logRan c.name cb)).WellTyped
      rw [storeOf_logRan]
      exact h3

theorem Use_ok (f : Iface) (m : Option HandlerFunc → HandlerFunc) (h : Use f = .ok m) :
    ∃ c, f = Iface.func c ∧ c.accepted ∧ m = fun next => useServe c c.ins next := by
  unfold Use at h
  cases hh : helper f with
  | error e => simp [hh] at h
  | ok p =>
    obtain ⟨c, ins⟩ := p
    have hfunc := helper_ok_func f c ins hh
    subst hfunc
    obtain ⟨_, hins, hnd, hout⟩ := (helper_ok_iff c c ins).mp hh
    subst hins
    simp only [hh, Except.ok.injEq] at h
    exact ⟨c, rfl, ⟨hnd, hout⟩, h.symm⟩

theorem Handler_ok (f : Iface) (hd : HandlerFunc) (h : Handler f = .ok hd) :
    ∃ c, f = Iface.func c ∧ c.accepted ∧ hd = handlerServe c c.ins := by
  unfold Handler at h
  cases hh : helper f with
  | error e => simp [hh] at h
  | ok p =>
    obtain ⟨c, ins⟩ := p
    have hfunc := helper_ok_func f c ins hh
    subst hfunc
    obtain ⟨_, hins, hnd, hout⟩ := (helper_ok_iff c c ins).mp hh
    subst hins
    simp only [hh, Except.ok.injEq] at h
    exact ⟨c, rfl, ⟨hnd, hout⟩, h.symm⟩

theorem useAll_ok (fs : List Iface) (ms : List (Option HandlerFunc → HandlerFunc))
    (h : useAll fs = .ok ms) :
    ∃ cs, fs = cs.map Iface.func ∧ (∀ c ∈ cs, c.accepted) ∧ ms = stagesOf cs := by
  induction fs generalizing ms with
  | nil =>
    simp only [useAll, Except.ok.injEq] at h
    exact ⟨[], rfl, by simp, h.symm⟩
  | cons f fs ih =>
    unfold useAll at h
    cases hU : Use f with
    | error e => simp [hU] at h
    | ok m =>
      cases hA : useAll fs with
      | error e => simp [hU, hA] at h
      | ok ms2 =>
        simp only [hU, hA, Except.ok.injEq] at h
        obtain ⟨c, hf, hacc, hm⟩ := Use_ok f m hU
        obtain ⟨cs, hfs, hcs, hms⟩ := ih ms2 hA
        refine ⟨c :: cs, by simp [hf, hfs], ?_, ?_⟩
        · intro x hx
          rcases List.mem_cons.mp hx with hx | hx
          · exact hx ▸ hacc
          · exact hcs x hx
        · rw [← h, hm, hms]
          rfl

theorem terminal_ok (last : Option Iface) (l : Option HandlerFunc)
    (h : terminal last = .ok l) :
    ∃ lc : Option Callable, last = lc.map Iface.func ∧ (∀ c ∈ lc, c.accepted) ∧
      l = terminalOf lc := by
  cases last with
  | none =>
    simp only [terminal, Except.ok.injEq] at h
    exact ⟨none, rfl, by simp, h.symm⟩
  | some f =>
    unfold terminal at h
    cases hH : Handler f with
    | error e => simp [hH] at h
    | ok hd =>
      simp only [hH, Except.ok.injEq] at h
      obtain ⟨c, hf, hacc, hhd⟩ := Handler_ok f hd hH
      refine ⟨some c, by simp [hf], ?_, ?_⟩
      · intro x hx
        cases hx
        exact hacc
      · rw [← h, hhd]
        rfl

theorem chain_ok (fs : List Iface) (last : Option Iface) (h : Option HandlerFunc)
    (hc : chain fs last = .ok h) :
    ∃ (cs : List Callable) (lc : Option Callable),
      fs = cs.map Iface.func ∧ last = lc.map Iface.func ∧
      (∀ c ∈ cs, c.accepted) ∧ (∀ c ∈ lc, c.accepted) ∧
      h = compile (stagesOf cs) (terminalOf lc) := by
  unfold chain at hc
  cases hA : useAll fs with
  | error e => simp [hA] at hc
  | ok ms =>
    cases hT : terminal last with
    | error e => simp [hA, hT] at hc
    | ok l =>
      simp only [hA, hT, Except.ok.injEq] at hc
      obtain ⟨cs, hfs, hcs, hms⟩ := useAll_ok fs ms hA
      obtain ⟨lc, hlast, hlc, hl⟩ := terminal_ok last l hT
      exact ⟨cs, lc, hfs, hlast, hcs, hlc, by rw [← hc, hms, hl]⟩

theorem forall2_getElem {α β : Type} (R : α → β → Prop) (l1 : List α) (l2 : List β)
    (h : List.Forall₂ R l1 l2) (p : Nat) (a : α) (ha : l1[p]? = some a) :
    ∃ b, l2[p]? = some b ∧ R a b := by
  induction h generalizing p with
  | nil => simp at ha
  | cons hab _ ih =>
    cases p with
    | zero =>
      simp only [List.getElem?_cons_zero, Option.some.injEq] at ha
      subst ha
      exact ⟨_, by simp, hab⟩
    | succ p =>
      simp only [List.getElem?_cons_succ] at ha
      obtain ⟨b, hb, hr⟩ := ih p ha
      exact ⟨b, by simpa using hb, hr⟩

theorem chain_consistent (fs : List Iface) (last : Option Iface) (h : Option HandlerFunc)
    (hchain : chain fs last = .ok h) (w : Writer) (r : Request) (s s2 : State)
    (htr : s.trace = []) (hrun : serve h w r s = .ok s2) :
    consistent w r (storeOf r s) s2.trace := by
  obtain ⟨cs, lc, _, _, hcs, hlc, hh⟩ := chain_ok fs last h hchain
  subst hh
  exact (run_consistent w r (storeOf r s) lc hlc cs hcs s s2 hrun
    (by rw [htr]; rfl) (by rw [htr]; trivial)).2.2

theorem chain_runs (fs : List Iface) (last : Option Iface) (h : Option HandlerFunc)
    (hchain : chain fs last = .ok h) (hfs : ∀ f ∈ fs, f.plain = true)
    (hlast : ∀ f ∈ last, f.plain = true) (w : Writer) (r : Request) (s : State)
    (hwt : (storeOf r s).WellTyped) :
    ∃ s2, serve h w r s = .ok s2 ∧ (storeOf r s2).WellTyped := by
  obtain ⟨cs, lc, hcs, hlc, _, _, hh⟩ := chain_ok fs last h hchain
  subst hh
  refine run_wellTyped w r lc ?_ cs ?_ s hwt
  · intro c hc
    have : Iface.func c ∈ last := by
      rw [hlc]
      exact Option.mem_map_of_mem _ hc
    exact hlast _ this
  · intro c hc
    have : Iface.func c ∈ fs := by
      rw [hcs]
      exact List.mem_map_of_mem _ hc
    exact hfs _ this

theorem replay_builtin (m : Store) (tr : List Event) (t : Ty) (ht : t.builtin = true) :
    replay m tr t = m t := by
  induction tr generalizing m with
  | nil => rfl
  | cons e tr ih =>
    cases e with
    | call n ps args => exact ih m
    | emit x => exact ih m
    | ran n cb => exact ih m
    | ret n vals =>
      have h1 : replay m (Event.ret n vals :: tr) = replay (usePublish m vals) tr := rfl
      rw [h1, ih, usePublish_builtin m vals t ht]

theorem useResolve_builtin (w : Writer) (r : Request) (m m2 : Store) (t : Ty)
    (ht : t.builtin = true) : useResolve w r m t = useResolve w r m2 t := by
  cases t <;> simp [Ty.builtin] at ht <;> simp [useResolve]

theorem handlerResolve_congr (w : Writer) (r : Request) (m m2 : Store) (t : Ty)
    (h : m t = m2 t) : handlerResolve w r m t = handlerResolve w r m2 t := by
  unfold handlerResolve
  rw [h]

theorem consistent_call (w : Writer) (r : Request) (m : Store) (pre : List Event) (n : Nat)
    (params : List Ty) (args : List Val) (post : List Event)
    (h : consistent w r m (pre ++ Event.call n params args :: post))
    (p : Nat) (t : Ty) (hp : params[p]? = some t) (ht : t.builtin = false) :
    args[p]? = some (match lastProduced t pre with
      | some v => v
      | none => orZero m t) := by
  rw [consistent_append] at h
  obtain ⟨b, hb, hr⟩ := forall2_getElem _ params args h.2.1 p t hp
  have h1 : t ≠ responseType := by
    intro e
    subst e
    simp [Ty.builtin] at ht
  have h2 : t ≠ requestType := by
    intro e
    subst e
    simp [Ty.builtin] at ht
  have hb2 : b = orZero (replay m pre) t := by
    rcases hr with hr | hr
    · rw [hr, useResolve_other w r _ t ht]
    · rw [hr, handlerResolve_other w r _ t h1 h2]
  rw [hb, hb2, orZero_replay m pre t ht]

theorem consistent_call_builtin (w : Writer) (r : Request) (m : Store) (pre : List Event)
    (n : Nat) (params : List Ty) (args : List Val) (post : List Event)
    (h : consistent w r m (pre ++ Event.call n params args :: post))
    (p : Nat) (t : Ty) (hp : params[p]? = some t) (ht : t.builtin = true) :
    args[p]? = some (useResolve w r m t) ∨ args[p]? = some (handlerResolve w r m t) := by
  rw [consistent_append] at h
  obtain ⟨b, hb, hr⟩ := forall2_getElem _ params args h.2.1 p t hp
  rcases hr with hr | hr
  · left
    rw [hb, hr, useResolve_builtin w r (replay m pre) m t ht]
  · right
    rw [hb, hr, handlerResolve_congr w r (replay m pre) m t (replay_builtin m pre t ht)]

theorem wellTyped_fresh (r : Request) : (storeOf r State.fresh).WellTyped := by
  intro t v hv
  simp [storeOf, getValuesMap, State.fresh] at hv

/-- C5 (as amended): in a run of a chain on a request, whenever a stage is invoked, its
parameter of a type `t` that is not built-in receives the last value of type `t`
returned by the stages invoked before it, the stage itself excluded (and the entry of
the initial store, or the zero value, when no stage has returned a `t`); its parameter
of a built-in capability type receives what the switch of the stage resolves it to
from the writer, the request and the initial store alone, whatever was returned before.
A chain of ordinary function values does return. -/
theorem C5_last_write_wins (fs : List Iface) (last : Option Iface) (h : Option HandlerFunc)
    (hchain : chain fs last = .ok h) (w : Writer) (r : Request) (s : State)
    (htr : s.trace = []) (hwt : (storeOf r s).WellTyped) :
    (∀ s2, serve h w r s = .ok s2 →
      ∀ (pre : List Event) (n : Nat) (params : List Ty) (args : List Val) (post : List Event),
        s2.trace = pre ++ Event.call n params args :: post →
        ∀ (p : Nat) (t : Ty), params[p]? = some t →
          (t.builtin = false →
            args[p]? = some (match lastProduced t pre with
              | some v => v
              | none => orZero (storeOf r s) t)) ∧
          (t.builtin = true →
            args[p]? = some (useResolve w r (storeOf r s) t) ∨
            args[p]? = some (handlerResolve w r (storeOf r s) t))) ∧
    ((∀ f ∈ fs, f.plain = true) → (∀ f ∈ last, f.plain = true) →
      ∃ s2, serve h w r s = .ok s2) := by
  constructor
  · intro s2 hs2 pre n params args post hdec p t hp
    have hco := chain_consistent fs last h hchain w r s s2 htr hs2
    rw [hdec] at hco
    exact ⟨consistent_call w r _ pre n params args post hco p t hp,
      consistent_call_builtin w r _ pre n params args post hco p t hp⟩
  · intro hfs hlast
    obtain ⟨s2, hs2, _⟩ := chain_runs fs last h hchain hfs hlast w r s hwt
    exact ⟨s2, hs2⟩

/-- Witness of C5 on the chain `func() int` (returns 1), `func(a int) int` (returns
`a + 1`), run on a new request. -/
theorem C5_last_write_wins_witness :
    (chain [Iface.func (constInt 30 1), Iface.func refreshInt] none =
        .ok (compile (stagesOf [constInt 30 1, refreshInt]) none) ∧
      State.fresh.trace = [] ∧ (storeOf 0 State.fresh).WellTyped) ∧
    ∃ s2, serve (compile (stagesOf [constInt 30 1, refreshInt]) none) exampleWriter 0
        State.fresh = .ok s2 ∧
      ∀ (pre : List Event) (n : Nat) (params : List Ty) (args : List Val) (post : List Event),
        s2.trace = pre ++ Event.call n params args :: post →
        ∀ (p : Nat) (t : Ty), params[p]? = some t →
          (t.builtin = false →
            args[p]? = some (match lastProduced t pre with
              | some v => v
              | none => orZero (storeOf 0 State.fresh) t)) ∧
          (t.builtin = true →
            args[p]? = some (useResolve exampleWriter 0 (storeOf 0 State.fresh) t) ∨
            args[p]? = some (handlerResolve exampleWriter 0 (storeOf 0 State.fresh) t)) :=
  ⟨⟨rfl, rfl, wellTyped_fresh 0⟩,
    ((C5_last_write_wins [Iface.func (constInt 30 1), Iface.func refreshInt] none _ rfl
      exampleWriter 0 State.fresh rfl (wellTyped_fresh 0)).2
        (by decide) (by decide)).elim
      (fun s2 hs2 => ⟨s2, hs2,
        (C5_last_write_wins [Iface.func (constInt 30 1), Iface.func refreshInt] none _ rfl
          exampleWriter 0 State.fresh rfl (wellTyped_fresh 0)).1 s2 hs2⟩)⟩

/-- Counterexample to C5 as stated.  First chain: a stage returns a `*http.Request`
and the next stage declares one; the parameter is the current request, not the returned
value.  Second chain: stage 0 returns the `int` 1 and stage 1, the first stage after
it that declares an `int`, returns the `int` 2; stage 1 receives 1, while the last
`int` produced by the stages 0 to 1 inclusive is 2.  Third chain: stage 0 returns the
`int` 41 and stops the chain; stage 1, which declares an `int`, is never called and
observes nothing. -/
theorem C5_counterexample :
    (∃ h s2, chain [Iface.func returnsRequest, Iface.func takesRequest] none = .ok h ∧
      serve h exampleWriter 0 State.fresh = .ok s2 ∧
      s2.trace =
        [Event.call 31 [] [], Event.ret 31 [Val.data requestType 5],
         Event.call 32 [requestType] [Val.request 0], Event.ret 32 []] ∧
      Val.request 0 ≠ Val.data requestType 5) ∧
    (∃ h s2, chain [Iface.func (constInt 30 1), Iface.func refreshInt] none = .ok h ∧
      serve h exampleWriter 0 State.fresh = .ok s2 ∧
      s2.trace =
        [Event.call 30 [] [], Event.ret 30 [Val.data (Ty.other 5) 1],
         Event.call 12 [Ty.other 5] [Val.data (Ty.other 5) 1],
         Event.ret 12 [Val.data (Ty.other 5) 2]] ∧
      lastProduced (Ty.other 5) s2.trace = some (Val.data (Ty.other 5) 2) ∧
      Val.data (Ty.other 5) 1 ≠ Val.data (Ty.other 5) 2) ∧
    (∃ h s2, chain [Iface.func stopper, Iface.func takesInt] none = .ok h ∧
      serve h exampleWriter 0 State.fresh = .ok s2 ∧
      s2.trace =
        [Event.call 20 [stopChainType, afterNextType] [Val.stop, Val.after],
         Event.emit 9, Event.ret 20 [Val.data (Ty.other 5) 41], Event.ran 20 7] ∧
      takesInt.name ∉ callNames s2.trace) :=
  ⟨⟨_, _, rfl, rfl, rfl, by decide⟩, ⟨_, _, rfl, rfl, rfl, rfl, by decide⟩,
    ⟨_, _, rfl, rfl, rfl, by decide⟩⟩

theorem filter_type_singleton (vs : List Val) (hnd : (vs.map Val.type).Nodup) (v : Val)
    (hv : v ∈ vs) : vs.filter (fun x => decide (x.type = v.type)) = [v] := by
  induction vs with
  | nil => cases hv
  | cons a vs ih =>
    rw [List.map_cons, List.nodup_cons] at hnd
    rcases List.mem_cons.mp hv with hva | hva
    · subst hva
      have hnone : vs.filter (fun x => decide (x.type = v.type)) = [] := by
        rw [List.filter_eq_nil_iff]
        intro x hx hxt
        exact hnd.1 (List.mem_map.mpr ⟨x, hx, by simpa using hxt⟩)
      simp [List.filter_cons, hnone]
    · have hne : a.type ≠ v.type := by
        intro h
        exact hnd.1 (h ▸ List.mem_map_of_mem Val.type hva)
      simp [List.filter_cons, hne, ih hnd.2 hva]

theorem consistent_ret (w : Writer) (r : Request) (m : Store) (pre : List Event) (b : Nat)
    (vals : List Val) (post : List Event)
    (h : consistent w r m (pre ++ Event.ret b vals :: post)) :
    (vals.map Val.type).Nodup := by
  rw [consistent_append] at h
  exact h.2.1

theorem lastProduced_after_ret (t : Ty) (pre : List Event) (b : Nat) (vals : List Val)
    (mid : List Event) (v : Val) (hnd : (vals.map Val.type).Nodup) (hv : v ∈ vals)
    (hvt : v.type = t) (hmid : ∀ x ∈ returned mid, x.type ≠ t) :
    lastProduced t (pre ++ Event.ret b vals :: mid) = some v := by
  subst hvt
  have hnone : (returned mid).filter (fun x => decide (x.type = v.type)) = [] := by
    rw [List.filter_eq_nil_iff]
    intro x hx hxt
    exact hmid x hx (by simpa using hxt)
  unfold lastProduced
  rw [returned_append]
  simp only [returned, List.filter_append, hnone, List.append_nil,
    filter_type_singleton vals hnd v hv]
  simp

/-- C6: overwrite semantics.  In a run of a chain on a request, once a stage `b` has
returned a value `vB` of a type `t` that is not built-in, every stage invoked later
(chainable or terminal) with no return of a `t` in between receives `vB` for its
parameter of type `t`, whatever value of type `t` an earlier stage `a` returned before
`b`: the parameter receives the value returned by the latest stage that returned one.
A chain of ordinary function values does return. -/
theorem C6_overwrite (fs : List Iface) (last : Option Iface) (h : Option HandlerFunc)
    (hchain : chain fs last = .ok h) (w : Writer) (r : Request) (s : State)
    (htr : s.trace = []) (hwt : (storeOf r s).WellTyped) :
    (∀ s2, serve h w r s = .ok s2 →
      ∀ (pre : List Event) (b : Nat) (valsB : List Val) (mid : List Event) (n : Nat)
        (params : List Ty) (args : List Val) (post : List Event),
        s2.trace = pre ++ Event.ret b valsB :: (mid ++ Event.call n params args :: post) →
        ∀ (t : Ty) (vB : Val), t.builtin = false → vB ∈ valsB → vB.type = t →
          (∀ x ∈ returned mid, x.type ≠ t) →
          ∀ p : Nat, params[p]? = some t → args[p]? = some vB) ∧
    ((∀ f ∈ fs, f.plain = true) → (∀ f ∈ last, f.plain = true) →
      ∃ s2, serve h w r s = .ok s2) := by
  constructor
  · intro s2 hs2 pre b valsB mid n params args post hdec t vB ht hvB hvt hmid p hp
    have hco := chain_consistent fs last h hchain w r s s2 htr hs2
    rw [hdec] at hco
    have hnd := consistent_ret w r _ pre b valsB _ hco
    have hco2 : consistent w r (storeOf r s)
        ((pre ++ Event.ret b valsB :: mid) ++ Event.call n params args :: post) := by
      simpa using hco
    rw [consistent_call w r _ _ n params args post hco2 p t hp ht,
      lastProduced_after_ret t pre b valsB mid vB hnd hvB hvt hmid]
  · intro hfs hlast
    obtain ⟨s2, hs2, _⟩ := chain_runs fs last h hchain hfs hlast w r s hwt
    exact ⟨s2, hs2⟩

/-- Witness of C6 on scenario C: two stages return the `int` 1 and then the `int` 2, and
the terminal stage `func(a int)` receives 2. -/
theorem C6_overwrite_witness :
    (chain [Iface.func (constInt 30 1), Iface.func (constInt 33 2)]
        (some (Iface.func takesInt)) =
        .ok (compile (stagesOf [constInt 30 1, constInt 33 2]) (terminalOf (some takesInt))) ∧
      State.fresh.trace = [] ∧ (storeOf 0 State.fresh).WellTyped) ∧
    (∃ s2, serve (compile (stagesOf [constInt 30 1, constInt 33 2])
        (terminalOf (some takesInt))) exampleWriter 0 State.fresh = .ok s2 ∧
      s2.trace =
        [Event.call 30 [] [], Event.ret 30 [Val.data (Ty.other 5) 1],
         Event.call 33 [] [], Event.ret 33 [Val.data (Ty.other 5) 2],
         Event.call 34 [Ty.other 5] [Val.data (Ty.other 5) 2], Event.ret 34 []]) ∧
    ∃ s2, serve (compile (stagesOf [constInt 30 1, constInt 33 2])
        (terminalOf (some takesInt))) exampleWriter 0 State.fresh = .ok s2 ∧
      ∀ (pre : List Event) (b : Nat) (valsB : List Val) (mid : List Event) (n : Nat)
        (params : List Ty) (args : List Val) (post : List Event),
        s2.trace = pre ++ Event.ret b valsB :: (mid ++ Event.call n params args :: post) →
        ∀ (t : Ty) (vB : Val), t.builtin = false → vB ∈ valsB → vB.type = t →
          (∀ x ∈ returned mid, x.type ≠ t) →
          ∀ p : Nat, params[p]? = some t → args[p]? = some vB :=
  ⟨⟨rfl, rfl, wellTyped_fresh 0⟩, ⟨_, rfl, rfl⟩,
    ((C6_overwrite [Iface.func (constInt 30 1), Iface.func (constInt 33 2)]
      (some (Iface.func takesInt)) _ rfl exampleWriter 0 State.fresh rfl
        (wellTyped_fresh 0)).2 (by decide) (by decide)).elim
      (fun s2 hs2 => ⟨s2, hs2,
        (C6_overwrite [Iface.func (constInt 30 1), Iface.func (constInt 33 2)]
          (some (Iface.func takesInt)) _ rfl exampleWriter 0 State.fresh rfl
            (wellTyped_fresh 0)).1 s2 hs2⟩)⟩

/-! ### The order of after-callbacks -/

theorem ranNames_append (a b : List Event) : ranNames (a ++ b) = ranNames a ++ ranNames b := by
  induction a with
  | nil => rfl
  | cons e a ih => cases e <;> simp [ranNames, ih]

theorem ranNames_effects (acts : List Act) : ranNames (effects acts) = [] := by
  induction acts with
  | nil => rfl
  | cons a acts ih => cases a <;> simp [effects, ranNames, ih]

theorem ranNames_callEvents (c : Callable) (ins : List Ty) (fIn : List Val) (acts : List Act)
    (fOut : List Val) : ranNames (callEvents c ins fIn acts fOut) = [] := by
  simp [callEvents, ranNames, ranNames_append, ranNames_effects]

theorem mem_callNames (tr : List Event) (n : Nat) (ps : List Ty) (args : List Val)
    (h : Event.call n ps args ∈ tr) : n ∈ callNames tr := by
  induction tr with
  | nil => cases h
  | cons e tr ih =>
    rcases List.mem_cons.mp h with h1 | h1
    · subst h1
      simp [callNames]
    · have h2 := ih h1
      cases e <;> simp [callNames, h2]

theorem mem_ranNames (tr : List Event) (n cb : Nat) (h : Event.ran n cb ∈ tr) :
    n ∈ ranNames tr := by
  induction tr with
  | nil => cases h
  | cons e tr ih =>
    rcases List.mem_cons.mp h with h1 | h1
    · subst h1
      simp [ranNames]
    · have h2 := ih h1
      cases e <;> simp [ranNames, h2]

theorem not_mem_effects_call (acts : List Act) (n : Nat) (ps : List Ty) (args : List Val) :
    Event.call n ps args ∉ effects acts := by
  induction acts with
  | nil => simp [effects]
  | cons a acts ih => cases a <;> simp [effects, ih]

theorem not_mem_effects_ran (acts : List Act) (n cb : Nat) :
    Event.ran n cb ∉ effects acts := by
  induction acts with
  | nil => simp [effects]
  | cons a acts ih => cases a <;> simp [effects, ih]

theorem call_mem_callEvents (c : Callable) (ins : List Ty) (fIn : List Val) (acts : List Act)
    (fOut : List Val) (n : Nat) (ps : List Ty) (args : List Val)
    (h : Event.call n ps args ∈ callEvents c ins fIn acts fOut) :
    n = c.name ∧ ps = ins ∧ args = fIn := by
  unfold callEvents at h
  rcases List.mem_cons.mp h with h1 | h1
  · cases h1
    exact ⟨rfl, rfl, rfl⟩
  · rcases List.mem_append.mp h1 with h2 | h2
    · exact absurd h2 (not_mem_effects_call acts n ps args)
    · rw [List.mem_singleton] at h2
      cases h2

theorem ran_not_mem_callEvents (c : Callable) (ins : List Ty) (fIn : List Val)
    (acts : List Act) (fOut : List Val) (n cb : Nat) :
    Event.ran n cb ∉ callEvents c ins fIn acts fOut := by
  unfold callEvents
  intro h
  rcases List.mem_cons.mp h with h1 | h1
  · cases h1
  · rcases List.mem_append.mp h1 with h2 | h2
    · exact not_mem_effects_ran acts n cb h2
    · rw [List.mem_singleton] at h2
      cases h2

theorem ran_mem_ranPart (name : Nat) (slot : Option Nat) (n cb : Nat) :
    Event.ran n cb ∈ ranPart name slot ↔ n = name ∧ slot = some cb := by
  cases slot with
  | none => simp [ranPart]
  | some x =>
    simp only [ranPart, List.mem_singleton, Event.ran.injEq, Option.some.injEq]
    exact ⟨fun h => ⟨h.1, h.2.symm⟩, fun h => ⟨h.1, h.2.symm⟩⟩

theorem call_not_mem_ranPart (name : Nat) (slot : Option Nat) (n : Nat) (ps : List Ty)
    (args : List Val) : Event.call n ps args ∉ ranPart name slot := by
  cases slot <;> simp [ranPart]

theorem callNames_ranPart (name : Nat) (slot : Option Nat) :
    callNames (ranPart name slot) = [] := by
  cases slot <;> rfl

theorem ranNames_ranPart (name : Nat) (slot : Option Nat) :
    List.Sublist (ranNames (ranPart name slot)) [name] := by
  cases slot with
  | none => exact List.nil_sublist _
  | some cb => exact List.Sublist.refl _

theorem run_names (w : Writer) (r : Request) (lc : Option Callable) (cs : List Callable)
    (hnd : (cs.map Callable.name ++ lc.toList.map Callable.name).Nodup) (s s2 : State)
    (hrun : serve (compile (stagesOf cs) (terminalOf lc)) w r s = .ok s2) :
    ∃ ext, s2.trace = s.trace ++ ext ∧
      List.Sublist (callNames ext) (cs.map Callable.name ++ lc.toList.map Callable.name) ∧
      List.Sublist (ranNames ext) (cs.map Callable.name).reverse ∧
      ∀ c ∈ cs, ∀ (ps : List Ty) (args : List Val), Event.call c.name ps args ∈ ext →
        ∀ cb, (Event.ran c.name cb ∈ ext ↔ afterSlot c args = some cb) := by
  induction cs generalizing s s2 with
  | nil =>
    cases lc with
    | none =>
      have : s2 = s := by
        simp only [stagesOf, terminalOf, List.map_nil, compile, Option.map_none', serve,
          Except.ok.injEq] at hrun
        exact hrun.symm
      subst this
      exact ⟨[], by simp, List.nil_sublist _, List.nil_sublist _, fun c hc => by cases hc⟩
    | some c =>
      have hrun2 : handlerServe c c.ins w r s = .ok s2 := hrun
      obtain ⟨acts, fOut, htr⟩ := handlerServe_ok_inv c c.ins w r s s2 hrun2
      refine ⟨_, htr, ?_, ?_, fun c hc => by cases hc⟩
      · rw [callNames_callEvents]
        simp
      · rw [ranNames_callEvents]
        exact List.nil_sublist _
  | cons c cs ih =>
    have hrun2 : useServe c c.ins (compile (stagesOf cs) (terminalOf lc)) w r s = .ok s2 := hrun
    obtain ⟨acts, fOut, s3, hcall, hor, hs2⟩ := useServe_ok_inv c c.ins _ w r s s2 hrun2
    have hacts : acts = (c.body (useArgs c.ins w r s)).acts :=
      (Call_ok_shape c _ acts fOut hcall).2.1
    simp only [List.map_cons, List.cons_append, List.nodup_cons] at hnd
    obtain ⟨hnotin, hnd2⟩ := hnd
    have hext : ∃ ext, s3.trace =
        (s.trace ++ callEvents c c.ins (useArgs c.ins w r s) acts fOut) ++ ext ∧
        List.Sublist (callNames ext) (cs.map Callable.name ++ lc.toList.map Callable.name) ∧
        List.Sublist (ranNames ext) (cs.map Callable.name).reverse ∧
        ∀ x ∈ cs, ∀ (ps : List Ty) (args : List Val), Event.call x.name ps args ∈ ext →
          ∀ cb, (Event.ran x.name cb ∈ ext ↔ afterSlot x args = some cb) := by
      rcases hor with ⟨_, hs3⟩ | ⟨_, hs3⟩
      · subst hs3
        exact ⟨[], by simp [usePublished], List.nil_sublist _, List.nil_sublist _,
          fun x _ ps args hc => by cases hc⟩
      · exact ih hnd2 _ _ hs3
    obtain ⟨ext, hext3, hcn, hrn, hreg⟩ := hext
    have htrace : s2.trace = s.trace ++
        (callEvents c c.ins (useArgs c.ins w r s) acts fOut ++ ext ++
          ranPart c.name (localsAfter (useArgs c.ins w r s) acts).after) := by
      rw [hs2, logRan_trace, hext3]
      simp [List.append_assoc]
    refine ⟨_, htrace, ?_, ?_, ?_⟩
    · simp only [callNames_append, callNames_callEvents, callNames_ranPart, List.append_nil,
        List.map_cons, List.cons_append, List.singleton_append]
      exact List.Sublist.cons₂ _ hcn
    · simp only [ranNames_append, ranNames_callEvents, List.nil_append, List.map_cons,
        List.reverse_cons]
      exact List.Sublist.append hrn (ranNames_ranPart _ _)
    · intro x hx ps args hcallmem cb
      have hnot_name : ∀ y ∈ cs, y.name ≠ c.name := by
        intro y hy hyc
        exact hnotin (List.mem_append_left _ (hyc ▸ List.mem_map_of_mem Callable.name hy))
      have hnot_call : ∀ ps2 args2, Event.call c.name ps2 args2 ∉ ext := by
        intro ps2 args2 hm
        exact hnotin (hcn.subset (mem_callNames ext c.name ps2 args2 hm))
      have hnot_ran : ∀ cb2, Event.ran c.name cb2 ∉ ext := by
        intro cb2 hm
        have := hrn.subset (mem_ranNames ext c.name cb2 hm)
        rw [List.mem_reverse] at this
        exact hnotin (List.mem_append_left _ this)
      rcases List.mem_cons.mp hx with hxc | hxcs
      · subst hxc
        have hargs : args = useArgs x.ins w r s := by
          rcases List.mem_append.mp hcallmem with h1 | h1
          · rcases List.mem_append.mp h1 with h2 | h2
            · exact (call_mem_callEvents _ _ _ _ _ _ _ _ h2).2.2
            · exact absurd h2 (hnot_call ps args)
          · exact absurd h1 (call_not_mem_ranPart _ _ _ _ _)
        subst hargs
        have hslot : afterSlot x (useArgs x.ins w r s) =
            (localsAfter (useArgs x.ins w r s) acts).after := by
          rw [hacts]
          rfl
        rw [hslot]
        constructor
        · intro hm
          rcases List.mem_append.mp hm with h1 | h1
          · rcases List.mem_append.mp h1 with h2 | h2
            · exact absurd h2 (ran_not_mem_callEvents _ _ _ _ _ _ _)
            · exact absurd h2 (hnot_ran cb)
          · exact ((ran_mem_ranPart _ _ _ _).mp h1).2
        · intro hm
          exact List.mem_append_right _ ((ran_mem_ranPart _ _ _ _).mpr ⟨rfl, hm⟩)
      · have hne := hnot_name x hxcs
        have hcall_ext : Event.call x.name ps args ∈ ext := by
          rcases List.mem_append.mp hcallmem with h1 | h1
          · rcases List.mem_append.mp h1 with h2 | h2
            · exact absurd (call_mem_callEvents _ _ _ _ _ _ _ _ h2).1 hne
            · exact h2
          · exact absurd h1 (call_not_mem_ranPart _ _ _ _ _)
        rw [← hreg x hxcs ps args hcall_ext cb]
        constructor
        · intro hm
          rcases List.mem_append.mp hm with h1 | h1
          · rcases List.mem_append.mp h1 with h2 | h2
            · exact absurd h2 (ran_not_mem_callEvents _ _ _ _ _ _ _)
            · exact h2
          · exact absurd ((ran_mem_ranPart _ _ _ _).mp h1).1 hne
        · intro hm
          exact List.mem_append_left _ (List.mem_append_right _ hm)

theorem func_injective : Function.Injective Iface.func := by
  intro a b hab
  cases hab
  rfl

theorem chain_of_callables (cs : List Callable) (lc : Option Callable)
    (h : Option HandlerFunc)
    (hchain : chain (cs.map Iface.func) (lc.map Iface.func) = .ok h) :
    h = compile (stagesOf cs) (terminalOf lc) := by
  obtain ⟨cs2, lc2, hcs, hlc, _, _, hh⟩ := chain_ok _ _ h hchain
  have h1 : cs = cs2 := List.map_injective_iff.mpr func_injective hcs
  have h2 : lc = lc2 := Option.map_injective func_injective hlc
  rw [h1, h2, hh]

/-- C9: in a run of a chain of chainable stages (registered under pairwise distinct
names) on a request, the stages whose after-callback is invoked form, in the order of
invocation of the callbacks, a subsequence of the reversed registration order (LIFO,
each at most once), and an invoked stage has its callback invoked exactly when its
after-slot held that callback when its body returned; this holds whether the later
stages ran or were skipped by a stop.  A chain of ordinary function values returns
normally. -/
theorem C9_after_callbacks_lifo (cs : List Callable) (lc : Option Callable)
    (h : Option HandlerFunc)
    (hchain : chain (cs.map Iface.func) (lc.map Iface.func) = .ok h)
    (hnames : (cs.map Callable.name ++ lc.toList.map Callable.name).Nodup)
    (w : Writer) (r : Request) (s : State) (htr : s.trace = [])
    (hwt : (storeOf r s).WellTyped) :
    (∀ s2, serve h w r s = .ok s2 →
      List.Sublist (ranNames s2.trace) (cs.map Callable.name).reverse ∧
      ∀ c ∈ cs, ∀ (ps : List Ty) (args : List Val), Event.call c.name ps args ∈ s2.trace →
        ∀ cb, (Event.ran c.name cb ∈ s2.trace ↔ afterSlot c args = some cb)) ∧
    ((∀ c ∈ cs, c.plain = true) → (∀ c ∈ lc, c.plain = true) →
      ∃ s2, serve h w r s = .ok s2) := by
  have hh := chain_of_callables cs lc h hchain
  subst hh
  constructor
  · intro s2 hs2
    obtain ⟨ext, hext, _, hrn, hreg⟩ := run_names w r lc cs hnames s s2 hs2
    rw [htr, List.nil_append] at hext
    refine ⟨?_, ?_⟩
    · rw [hext]
      exact hrn
    · rw [hext]
      exact hreg
  · intro hcs hlc
    obtain ⟨s2, hs2, _⟩ := run_wellTyped w r lc hlc cs hcs s hwt
    exact ⟨s2, hs2⟩

/-- Witness of C9 on a chain of two stages that register the callbacks 1 and 2, a third
stage that registers callback 7 and stops, and the terminal handler of the example
(never reached): the callbacks run in the order 7, 2, 1. -/
theorem C9_after_callbacks_lifo_witness :
    (chain ([registers 40 1, registers 41 2, stopper].map Iface.func)
        ((some exampleHello).map Iface.func) =
        .ok (compile (stagesOf [registers 40 1, registers 41 2, stopper])
          (terminalOf (some exampleHello))) ∧
      ([registers 40 1, registers 41 2, stopper].map Callable.name ++
        (some exampleHello).toList.map Callable.name).Nodup ∧
      State.fresh.trace = [] ∧ (storeOf 0 State.fresh).WellTyped) ∧
    (∃ s2, serve (compile (stagesOf [registers 40 1, registers 41 2, stopper])
        (terminalOf (some exampleHello))) exampleWriter 0 State.fresh = .ok s2 ∧
      s2.trace =
        [Event.call 40 [afterNextType] [Val.after], Event.ret 40 [],
         Event.call 41 [afterNextType] [Val.after], Event.ret 41 [],
         Event.call 20 [stopChainType, afterNextType] [Val.stop, Val.after],
         Event.emit 9, Event.ret 20 [Val.data (Ty.other 5) 41],
         Event.ran 20 7, Event.ran 41 2, Event.ran 40 1]) ∧
    ∃ s2, serve (compile (stagesOf [registers 40 1, registers 41 2, stopper])
        (terminalOf (some exampleHello))) exampleWriter 0 State.fresh = .ok s2 ∧
      List.Sublist (ranNames s2.trace)
        ([registers 40 1, registers 41 2, stopper].map Callable.name).reverse ∧
      ∀ c ∈ [registers 40 1, registers 41 2, stopper],
        ∀ (ps : List Ty) (args : List Val), Event.call c.name ps args ∈ s2.trace →
        ∀ cb, (Event.ran c.name cb ∈ s2.trace ↔ afterSlot c args = some cb) :=
  ⟨⟨rfl, by decide, rfl, wellTyped_fresh 0⟩, ⟨_, rfl, rfl⟩,
    ((C9_after_callbacks_lifo [registers 40 1, registers 41 2, stopper] (some exampleHello) _
      rfl (by decide) exampleWriter 0 State.fresh rfl (wellTyped_fresh 0)).2
        (by decide) (by decide)).elim
      (fun s2 hs2 => ⟨s2, hs2,
        (C9_after_callbacks_lifo [registers 40 1, registers 41 2, stopper]
          (some exampleHello) _ rfl (by decide) exampleWriter 0 State.fresh rfl
            (wellTyped_fresh 0)).1 s2 hs2⟩)⟩

/-! ### Built-in capabilities and publication -/

theorem useServe_none_trace (c : Callable) (ins : List Ty) (w : Writer) (r : Request)
    (s s2 : State) (h : useServe c ins none w r s = .ok s2) :
    Event.call c.name ins (useArgs ins w r s) ∈ s2.trace := by
  obtain ⟨acts, fOut, s3, _, hor, hs2⟩ := useServe_ok_inv c ins none w r s s2 h
  have hs3 : s3 = usePublished c ins w r s acts fOut := by
    rcases hor with ⟨_, h3⟩ | ⟨_, h3⟩
    · exact h3
    · simp only [serve, Except.ok.injEq] at h3
      exact h3.symm
  have htr : s2.trace = s3.trace ++ ranPart c.name (localsAfter (useArgs ins w r s) acts).after := by
    rw [hs2, logRan_trace]
  rw [htr, hs3]
  exact List.mem_append_left _ (List.mem_append_right _ (mem_callEvents_call _ _ _ _ _))

theorem handlerServe_trace (c : Callable) (ins : List Ty) (w : Writer) (r : Request)
    (s s2 : State) (h : handlerServe c ins w r s = .ok s2) :
    Event.call c.name ins (handlerArgs ins w r s) ∈ s2.trace := by
  obtain ⟨acts, fOut, htr⟩ := handlerServe_ok_inv c ins w r s s2 h
  rw [htr]
  exact List.mem_append_right _ (mem_callEvents_call _ _ _ _ _)

/-- C11: built-in capabilities cannot be overridden by the store.  Whatever the store of
the request holds, a chainable stage resolves a parameter of type `http.ResponseWriter`
to the current writer, one of type `*http.Request` to the current request, one of type
`StopChain` to the closure that sets this invocation's stop-flag and one of type
`AfterNext` to the closure that assigns this invocation's after-slot; a terminal stage
resolves the writer and request types in the same way.  These are the arguments the
function value is called with. -/
theorem C11_builtins_not_overridable (f : Iface) (c : Callable) (ins : List Ty)
    (stage : Option HandlerFunc → HandlerFunc) (h : HandlerFunc)
    (hf : helper f = .ok (c, ins)) (hUse : Use f = .ok stage) (hH : Handler f = .ok h)
    (w : Writer) (r : Request) (s : State) (i : Nat) (t : Ty) (hi : ins[i]? = some t) :
    (t = responseType →
      (useArgs ins w r s)[i]? = some (Val.writer w) ∧
      (handlerArgs ins w r s)[i]? = some (Val.writer w)) ∧
    (t = requestType →
      (useArgs ins w r s)[i]? = some (Val.request r) ∧
      (handlerArgs ins w r s)[i]? = some (Val.request r)) ∧
    (t = stopChainType →
      (useArgs ins w r s)[i]? = some Val.stop ∧
      ∀ l : Locals, (perform (useArgs ins w r s) l Act.stop).skipNext = true) ∧
    (t = afterNextType →
      (useArgs ins w r s)[i]? = some Val.after ∧
      ∀ (l : Locals) (g : Option Nat),
        (perform (useArgs ins w r s) l (Act.after g)).after = g) ∧
    (∀ s2, stage none w r s = .ok s2 →
      Event.call c.name ins (useArgs ins w r s) ∈ s2.trace) ∧
    (∀ s2, h w r s = .ok s2 → Event.call c.name ins (handlerArgs ins w r s) ∈ s2.trace) := by
  rw [Use_of_helper f c ins stage hf hUse, Handler_of_helper f c ins h hf hH]
  have hu : ∀ g : Ty → Val, (ins.map g)[i]? = some (g t) := by
    intro g
    simp [List.getElem?_map, hi]
  refine ⟨?_, ?_, ?_, ?_, ?_, ?_⟩
  · intro ht
    subst ht
    exact ⟨by rw [useArgs, hu]; simp [useResolve], by rw [handlerArgs, hu]; simp [handlerResolve]⟩
  · intro ht
    subst ht
    exact ⟨by rw [useArgs, hu]; simp [useResolve], by rw [handlerArgs, hu]; simp [handlerResolve]⟩
  · intro ht
    subst ht
    have harg : (useArgs ins w r s)[i]? = some Val.stop := by
      rw [useArgs, hu]
      simp [useResolve]
    refine ⟨harg, fun l => ?_⟩
    have hmem : Val.stop ∈ useArgs ins w r s := List.getElem?_mem harg
    simp [perform, hmem]
  · intro ht
    subst ht
    have harg : (useArgs ins w r s)[i]? = some Val.after := by
      rw [useArgs, hu]
      simp [useResolve]
    refine ⟨harg, fun l g => ?_⟩
    have hmem : Val.after ∈ useArgs ins w r s := List.getElem?_mem harg
    simp [perform, hmem]
  · intro s2 hs2
    exact useServe_none_trace c ins w r s s2 hs2
  · intro s2 hs2
    exact handlerServe_trace c ins w r s s2 hs2

/-- Witness of C11 on a stage that declares the four built-in types, run on a request
whose store holds an entry under each of them. -/
theorem C11_builtins_not_overridable_witness :
    (helper (.func takesAll) = .ok (takesAll, takesAll.ins) ∧
      Use (.func takesAll) = .ok (fun next => useServe takesAll takesAll.ins next) ∧
      Handler (.func takesAll) = .ok (handlerServe takesAll takesAll.ins) ∧
      takesAll.ins[2]? = some stopChainType ∧
      storeOf 0 shadowState stopChainType = some (Val.data stopChainType 9)) ∧
    (useArgs takesAll.ins exampleWriter 0 shadowState)[2]? = some Val.stop ∧
    useArgs takesAll.ins exampleWriter 0 shadowState =
      [Val.writer exampleWriter, Val.request 0, Val.stop, Val.after] :=
  ⟨⟨rfl, rfl, rfl, rfl, rfl⟩,
    ((C11_builtins_not_overridable (.func takesAll) takesAll takesAll.ins
      (fun next => useServe takesAll takesAll.ins next)
      (handlerServe takesAll takesAll.ins) rfl rfl rfl exampleWriter 0 shadowState
      2 stopChainType rfl).2.2.1 rfl).1,
    rfl⟩

theorem usePublish_mem (m : Store) (fOut : List Val) (hnd : (fOut.map Val.type).Nodup)
    (v : Val) (hv : v ∈ fOut) (hb : v.type.builtin = false) :
    usePublish m fOut v.type = some v := by
  rw [usePublish_lookup m fOut v.type hb, filter_type_singleton fOut hnd v hv]
  rfl

theorem Call_results_nodup (c : Callable) (hacc : c.accepted) (fIn : List Val)
    (acts : List Act) (fOut : List Val) (hcall : c.Call fIn = .ok (acts, fOut)) :
    (fOut.map Val.type).Nodup := by
  have h2 : fOut = c.results fIn := (Call_ok_shape c fIn acts fOut hcall).2.2
  rw [h2, results_types]
  exact hacc.2

theorem helper_accepted (f : Iface) (c : Callable) (ins : List Ty)
    (hf : helper f = .ok (c, ins)) : f = Iface.func c ∧ ins = c.ins ∧ c.accepted := by
  have hfunc := helper_ok_func f c ins hf
  subst hfunc
  obtain ⟨_, hins, hnd, hout⟩ := (helper_ok_iff c c ins).mp hf
  exact ⟨rfl, hins, hnd, hout⟩

/-- C12: capabilities are never published.  The publication loop of `Use` and of
`Handler` leaves the entry of each of the four built-in capability types as it was (a
returned value of such a type is discarded, so a store without such an entry stays
without one), and sets every other returned value under its type, the last value of a
type overwriting what was there.  For a chainable stage this is the store its next step
is run on; for a terminal stage it is the final store. -/
theorem C12_capabilities_never_published (f : Iface) (c : Callable) (ins : List Ty)
    (stage : Option HandlerFunc → HandlerFunc) (h : HandlerFunc)
    (hf : helper f = .ok (c, ins)) (hUse : Use f = .ok stage) (hH : Handler f = .ok h)
    (w : Writer) (r : Request) (s : State) :
    (∀ (m : Store) (fOut : List Val) (t : Ty),
      (t.builtin = true → usePublish m fOut t = m t ∧ handlerPublish m fOut t = m t) ∧
      (t.builtin = false →
        usePublish m fOut t =
          (match (fOut.filter (fun v => decide (v.type = t))).getLast? with
            | some v => some v
            | none => m t) ∧
        handlerPublish m fOut t =
          (match (fOut.filter (fun v => decide (v.type = t))).getLast? with
            | some v => some v
            | none => m t))) ∧
    (∀ (acts : List Act) (fOut : List Val),
      c.Call (useArgs ins w r s) = .ok (acts, fOut) →
      storeOf r (usePublished c ins w r s acts fOut) = usePublish (storeOf r s) fOut ∧
      (∀ t, t.builtin = true →
        storeOf r (usePublished c ins w r s acts fOut) t = storeOf r s t) ∧
      (∀ v ∈ fOut, v.type.builtin = false →
        storeOf r (usePublished c ins w r s acts fOut) v.type = some v) ∧
      (∀ next : Option HandlerFunc, stage next w r s =
        match (if (localsAfter (useArgs ins w r s) acts).skipNext
            then .ok (usePublished c ins w r s acts fOut)
            else serve next w r (usePublished c ins w r s acts fOut)) with
        | .error e => .error e
        | .ok s3 =>
          match (localsAfter (useArgs ins w r s) acts).after with
          | some cb => .ok (s3.logRan c.name cb)
          | none => .ok s3)) ∧
    (∀ (acts : List Act) (fOut : List Val),
      c.Call (handlerArgs ins w r s) = .ok (acts, fOut) →
      ∃ s2, h w r s = .ok s2 ∧
        storeOf r s2 = handlerPublish (storeOf r s) fOut ∧
        (∀ t, t.builtin = true → storeOf r s2 t = storeOf r s t) ∧
        (∀ v ∈ fOut, v.type.builtin = false → storeOf r s2 v.type = some v)) := by
  obtain ⟨_, _, hacc⟩ := helper_accepted f c ins hf
  rw [Use_of_helper f c ins stage hf hUse, Handler_of_helper f c ins h hf hH]
  refine ⟨?_, ?_, ?_⟩
  · intro m fOut t
    refine ⟨fun ht => ⟨usePublish_builtin m fOut t ht, ?_⟩,
      fun ht => ⟨usePublish_lookup m fOut t ht, ?_⟩⟩
    · rw [handlerPublish_eq]
      exact usePublish_builtin m fOut t ht
    · rw [handlerPublish_eq]
      exact usePublish_lookup m fOut t ht
  · intro acts fOut hcall
    have hst : storeOf r (usePublished c ins w r s acts fOut) =
        usePublish (storeOf r s) fOut := by
      simp only [usePublished]
      rw [storeOf_update]
    refine ⟨hst, ?_, ?_, ?_⟩
    · intro t ht
      rw [hst, usePublish_builtin _ _ t ht]
    · intro v hv hb
      rw [hst]
      exact usePublish_mem _ fOut (Call_results_nodup c hacc _ acts fOut hcall) v hv hb
    · intro next
      exact useServe_run c ins next w r s acts fOut hcall
  · intro acts fOut hcall
    refine ⟨_, handlerServe_of_call c ins w r s acts fOut hcall, ?_, ?_, ?_⟩
    · rw [storeOf_update]
    · intro t ht
      rw [storeOf_update, handlerPublish_eq, usePublish_builtin _ _ t ht]
    · intro v hv hb
      rw [storeOf_update, handlerPublish_eq]
      exact usePublish_mem _ fOut (Call_results_nodup c hacc _ acts fOut hcall) v hv hb

/-- Witness of C12 on a terminal stage that returns a writer, a stop function and an
`int`, run on a new request: only the `int` is in the store afterwards. -/
theorem C12_capabilities_never_published_witness :
    (helper (.func returnsCapabilities) = .ok (returnsCapabilities, returnsCapabilities.ins) ∧
      Use (.func returnsCapabilities) =
        .ok (fun next => useServe returnsCapabilities returnsCapabilities.ins next) ∧
      Handler (.func returnsCapabilities) =
        .ok (handlerServe returnsCapabilities returnsCapabilities.ins) ∧
      returnsCapabilities.Call (handlerArgs returnsCapabilities.ins exampleWriter 0 State.fresh) =
        .ok ([], [Val.data responseType 3, Val.data stopChainType 3, Val.data (Ty.other 5) 8])) ∧
    ∃ s2, handlerServe returnsCapabilities returnsCapabilities.ins exampleWriter 0 State.fresh =
        .ok s2 ∧
      storeOf 0 s2 = handlerPublish (storeOf 0 State.fresh)
        [Val.data responseType 3, Val.data stopChainType 3, Val.data (Ty.other 5) 8] ∧
      (∀ t, t.builtin = true → storeOf 0 s2 t = storeOf 0 State.fresh t) ∧
      (∀ v ∈ [Val.data responseType 3, Val.data stopChainType 3, Val.data (Ty.other 5) 8],
        v.type.builtin = false → storeOf 0 s2 v.type = some v) :=
  ⟨⟨rfl, rfl, rfl, rfl⟩,
    (C12_capabilities_never_published (.func returnsCapabilities) returnsCapabilities
      returnsCapabilities.ins
      (fun next => useServe returnsCapabilities returnsCapabilities.ins next)
      (handlerServe returnsCapabilities returnsCapabilities.ins) rfl rfl rfl
      exampleWriter 0 State.fresh).2.2 [] _ rfl⟩

/-! ### The terminal stage against the chainable stage -/

theorem foldl_perform_after (fIn : List Val) (hno : Val.after ∉ fIn) (acts : List Act)
    (l : Locals) : (acts.foldl (perform fIn) l).after = l.after := by
  induction acts generalizing l with
  | nil => rfl
  | cons a acts ih =>
    rw [List.foldl_cons, ih]
    cases a with
    | stop => by_cases h : Val.stop ∈ fIn <;> simp [perform, h]
    | after g => simp [perform, hno]
    | emit e => rfl

theorem assignable_after (t : Ty) (h : afterNextType.AssignableTo t = true) :
    t = afterNextType := by
  cases t <;> simp [Ty.AssignableTo] at h ⊢

theorem assignable_stop (t : Ty) (h : stopChainType.AssignableTo t = true) :
    t = stopChainType := by
  cases t <;> simp [Ty.AssignableTo] at h ⊢

theorem Call_ok_mem (c : Callable) (hvar : c.typ.IsVariadic = false) (g : Ty → Val)
    (acts : List Act) (fOut : List Val)
    (hcall : c.Call (c.ins.map g) = .ok (acts, fOut)) (v : Val) (hv : v ∈ c.ins.map g) :
    ∃ t ∈ c.ins, v = g t ∧ (v.type).AssignableTo t = true := by
  have hnil := (Call_ok_shape c _ acts fOut hcall).1
  obtain ⟨_, hall, _, _⟩ := (Call_ok_iff c hnil hvar _ acts fOut).mp hcall
  obtain ⟨t, ht, hgt⟩ := List.mem_map.mp hv
  obtain ⟨i, hi, hit⟩ := List.mem_map.mp ht
  rw [List.mem_range] at hi
  have hget : (c.ins.map g).getD i (Zero (c.typ.In i)) = g (c.typ.In i) := by
    simp [Callable.ins, List.getD_eq_getElem?_getD, hi]
  have := hall i hi
  rw [hget, hit, hgt] at this
  exact ⟨t, ht, hgt.symm, this⟩

theorem args_eq_of_no_capability (ins : List Ty) (hstop : stopChainType ∉ ins)
    (hafter : afterNextType ∉ ins) (w : Writer) (r : Request) (s : State) :
    handlerArgs ins w r s = useArgs ins w r s := by
  unfold handlerArgs useArgs
  apply List.map_congr_left
  intro t ht
  have h1 : t ≠ stopChainType := fun h => hstop (h ▸ ht)
  have h2 : t ≠ afterNextType := fun h => hafter (h ▸ ht)
  simp [handlerResolve, useResolve, h1, h2]

/-- C13: a terminal stage is a chainable stage without a next step.  For an accepted
function value that declares neither a `StopChain` nor an `AfterNext` parameter, and
for every writer, request and state (whatever store is attached when the function is
not variadic; a store whose entries have the type of their key when it is),
`Handler(f)` resolves the same arguments as `Use(f)` and returns the same result as
`Use(f)(nil)`: the same fault, or the same final store and the same log. -/
theorem C13_handler_is_use_without_next (f : Iface) (c : Callable) (ins : List Ty)
    (stage : Option HandlerFunc → HandlerFunc) (h : HandlerFunc)
    (hf : helper f = .ok (c, ins)) (hUse : Use f = .ok stage) (hH : Handler f = .ok h)
    (hstop : stopChainType ∉ ins) (hafter : afterNextType ∉ ins)
    (w : Writer) (r : Request) (s : State)
    (hst : c.typ.IsVariadic = false ∨ (storeOf r s).WellTyped) :
    handlerArgs ins w r s = useArgs ins w r s ∧ h w r s = stage none w r s := by
  obtain ⟨_, hins, _⟩ := helper_accepted f c ins hf
  rw [Use_of_helper f c ins stage hf hUse, Handler_of_helper f c ins h hf hH]
  have hargs := args_eq_of_no_capability ins hstop hafter w r s
  refine ⟨hargs, ?_⟩
  show handlerServe c ins w r s = useServe c ins none w r s
  cases hcall : c.Call (useArgs ins w r s) with
  | error e =>
    rw [useServe_of_fault c ins none w r s e hcall,
      handlerServe_of_fault c ins w r s e (hargs ▸ hcall)]
  | ok p =>
    obtain ⟨acts, fOut⟩ := p
    have hno : Val.after ∉ useArgs ins w r s := by
      intro hmem
      rcases hst with hvar | hwt
      · have hcall2 := hcall
        rw [hins] at hcall2 hmem
        unfold useArgs at hcall2 hmem
        obtain ⟨t, ht, _, hassign⟩ := Call_ok_mem c hvar _ acts fOut hcall2 Val.after hmem
        have : t = afterNextType := assignable_after t hassign
        rw [this, ← hins] at ht
        exact hafter ht
      · unfold useArgs at hmem
        obtain ⟨t, ht, hgt⟩ := List.mem_map.mp hmem
        have hassign := useResolve_assignable w r (storeOf r s) hwt t
        rw [hgt] at hassign
        have : t = afterNextType := assignable_after t hassign
        exact hafter (this ▸ ht)
    have hslot : (localsAfter (useArgs ins w r s) acts).after = none := by
      unfold localsAfter
      rw [foldl_perform_after _ hno]
    rw [useServe_run c ins none w r s acts fOut hcall,
      handlerServe_of_call c ins w r s acts fOut (hargs ▸ hcall), hslot]
    cases (localsAfter (useArgs ins w r s) acts).skipNext <;>
      simp [serve, usePublished, handlerPublish_eq, hargs]

/-- Witness of C13 on the first stage of the example, run on a new request. -/
theorem C13_handler_is_use_without_next_witness :
    (helper (.func exampleStage1) = .ok (exampleStage1, exampleStage1.ins) ∧
      Use (.func exampleStage1) = .ok (fun next => useServe exampleStage1 exampleStage1.ins next) ∧
      Handler (.func exampleStage1) = .ok (handlerServe exampleStage1 exampleStage1.ins) ∧
      stopChainType ∉ exampleStage1.ins ∧ afterNextType ∉ exampleStage1.ins ∧
      (exampleStage1.typ.IsVariadic = false ∨ (storeOf 0 State.fresh).WellTyped)) ∧
    handlerArgs exampleStage1.ins exampleWriter 0 State.fresh =
      useArgs exampleStage1.ins exampleWriter 0 State.fresh ∧
    handlerServe exampleStage1 exampleStage1.ins exampleWriter 0 State.fresh =
      useServe exampleStage1 exampleStage1.ins none exampleWriter 0 State.fresh :=
  ⟨⟨rfl, rfl, rfl, by decide, by decide, Or.inl rfl⟩,
    C13_handler_is_use_without_next (.func exampleStage1) exampleStage1 exampleStage1.ins
      (fun next => useServe exampleStage1 exampleStage1.ins next)
      (handlerServe exampleStage1 exampleStage1.ins) rfl rfl rfl (by decide) (by decide)
      exampleWriter 0 State.fresh (Or.inl rfl)⟩

/-! ### What the signature inspector returns -/

/-- C14 (as amended): on success `helper` returns the function value and its ordered
parameter-type list: the list has one element per declared parameter and its `i`-th
element is the type of the `i`-th declared parameter.  No return-type list is returned;
the values the function value returns when it is called carry, in order, the declared
return types. -/
theorem C14_helper_returns_parameter_types (f : Iface) (c : Callable) (ins : List Ty)
    (hf : helper f = .ok (c, ins)) :
    f = Iface.func c ∧ ins.length = c.typ.NumIn ∧
      (∀ i, i < c.typ.NumIn → ins[i]? = some (c.typ.In i)) ∧
      (∀ (fIn : List Val) (acts : List Act) (fOut : List Val),
        c.Call fIn = .ok (acts, fOut) →
        fOut.length = c.typ.NumOut ∧
        ∀ i, i < c.typ.NumOut → (fOut[i]?).map Val.type = some (c.typ.Out i)) := by
  obtain ⟨hfunc, hins, _⟩ := helper_accepted f c ins hf
  subst hins
  refine ⟨hfunc, by simp [Callable.ins], ?_, ?_⟩
  · intro i hi
    simp [Callable.ins, List.getElem?_map, List.getElem?_range hi]
  · intro fIn acts fOut hcall
    have h := (Call_ok_shape c fIn acts fOut hcall).2.2
    subst h
    refine ⟨by simp [Callable.results], ?_⟩
    intro i hi
    simp [Callable.results, List.getElem?_map, List.getElem?_range hi, Val.type]

/-- Witness of C14 on the first stage of the example. -/
theorem C14_helper_returns_parameter_types_witness :
    helper (.func exampleStage1) = .ok (exampleStage1, [requestType]) ∧
      [requestType].length = exampleStage1.typ.NumIn ∧
      (∀ i, i < exampleStage1.typ.NumIn →
        [requestType][i]? = some (exampleStage1.typ.In i)) :=
  ⟨rfl,
    (C14_helper_returns_parameter_types (.func exampleStage1) exampleStage1 [requestType]
      rfl).2.1,
    (C14_helper_returns_parameter_types (.func exampleStage1) exampleStage1 [requestType]
      rfl).2.2.1⟩

/-- Counterexample to C14 as stated: for `func(r *http.Request) (method, *url.URL)`,
what `helper` returns is the function value and the list `[*http.Request]`; that list
has one element while the function declares two return values, and its element `0` is
not the type of the return value `0`.  No return-type list is returned. -/
theorem C14_counterexample :
    ∃ p : Callable × List Ty, helper (.func exampleStage1) = .ok p ∧
      p.1 = exampleStage1 ∧ p.2 = [requestType] ∧
      (List.range exampleStage1.typ.NumOut).map exampleStage1.typ.Out =
        [methodType, urlType] ∧
      p.2.length ≠ exampleStage1.typ.NumOut ∧
      p.2[0]? ≠ some (exampleStage1.typ.Out 0) :=
  ⟨_, rfl, rfl, rfl, rfl, by decide, by decide⟩

/-! ### The after-slot -/

theorem foldl_perform_after_rest (fIn : List Val) (rest : List Act)
    (hrest : ∀ g, Act.after g ∉ rest) (l : Locals) :
    (rest.foldl (perform fIn) l).after = l.after := by
  induction rest generalizing l with
  | nil => rfl
  | cons a rest ih =>
    rw [List.foldl_cons, ih (fun g hg => hrest g (List.mem_cons_of_mem _ hg))]
    cases a with
    | stop => by_cases h : Val.stop ∈ fIn <;> simp [perform, h]
    | after g => exact absurd (List.mem_cons_self _ _) (hrest g)
    | emit e => rfl

theorem after_mem_useArgs (ins : List Ty) (w : Writer) (r : Request) (s : State)
    (h : afterNextType ∈ ins) : Val.after ∈ useArgs ins w r s := by
  unfold useArgs
  rw [List.mem_map]
  exact ⟨afterNextType, h, by simp [useResolve]⟩

theorem localsAfter_last (fIn : List Val) (hmem : Val.after ∈ fIn) (before : List Act)
    (g : Option Nat) (rest : List Act) (hrest : ∀ g2, Act.after g2 ∉ rest) :
    (localsAfter fIn (before ++ Act.after g :: rest)).after = g := by
  unfold localsAfter
  rw [List.foldl_append, List.foldl_cons, foldl_perform_after_rest fIn rest hrest]
  simp [perform, hmem]

/-- C15: the after-slot holds at most one callback.  However many times the body of a
chainable stage calls its `AfterNext` registrar, the slot ends up holding the argument
of the last call (nothing when that argument is nil, and nothing when there was no
call), and at the end of the invocation the stage invokes what the slot holds: at most
one callback, appended to the log after the next step has returned or was skipped. -/
theorem C15_last_registration_wins (f : Iface) (c : Callable) (ins : List Ty)
    (stage : Option HandlerFunc → HandlerFunc)
    (hf : helper f = .ok (c, ins)) (hUse : Use f = .ok stage)
    (w : Writer) (r : Request) (s : State) (acts : List Act) (fOut : List Val)
    (hcall : c.Call (useArgs ins w r s) = .ok (acts, fOut)) :
    (∀ (before : List Act) (g : Option Nat) (rest : List Act),
      acts = before ++ Act.after g :: rest → (∀ g2, Act.after g2 ∉ rest) →
      afterNextType ∈ ins → (localsAfter (useArgs ins w r s) acts).after = g) ∧
    ((∀ g, Act.after g ∉ acts) → (localsAfter (useArgs ins w r s) acts).after = none) ∧
    (∀ (next : Option HandlerFunc) (s2 : State), stage next w r s = .ok s2 →
      ∃ s3,
        (((localsAfter (useArgs ins w r s) acts).skipNext = true ∧
            s3 = usePublished c ins w r s acts fOut) ∨
          ((localsAfter (useArgs ins w r s) acts).skipNext = false ∧
            serve next w r (usePublished c ins w r s acts fOut) = .ok s3)) ∧
        s2.kv = s3.kv ∧
        s2.trace = s3.trace ++ ranPart c.name (localsAfter (useArgs ins w r s) acts).after) ∧
    (ranPart c.name (localsAfter (useArgs ins w r s) acts).after).length ≤ 1 ∧
    (∀ cb, ranPart c.name (localsAfter (useArgs ins w r s) acts).after = [Event.ran c.name cb] ↔
      (localsAfter (useArgs ins w r s) acts).after = some cb) := by
  rw [Use_of_helper f c ins stage hf hUse]
  refine ⟨?_, ?_, ?_, ?_, ?_⟩
  · intro before g rest hacts hrest hdecl
    rw [hacts]
    exact localsAfter_last _ (after_mem_useArgs ins w r s hdecl) before g rest hrest
  · intro hno
    unfold localsAfter
    rw [foldl_perform_after_rest _ acts hno]
  · intro next s2 hs2
    obtain ⟨acts2, fOut2, s3, hcall2, hor, hs2eq⟩ := useServe_ok_inv c ins next w r s s2 hs2
    rw [hcall] at hcall2
    simp only [Except.ok.injEq, Prod.mk.injEq] at hcall2
    obtain ⟨ha, ho⟩ := hcall2
    subst ha
    subst ho
    refine ⟨s3, hor, ?_, ?_⟩
    · rw [hs2eq]
      cases (localsAfter (useArgs ins w r s) acts).after <;> rfl
    · rw [hs2eq, logRan_trace]
  · cases (localsAfter (useArgs ins w r s) acts).after <;> simp [ranPart]
  · intro cb
    cases (localsAfter (useArgs ins w r s) acts).after <;> simp [ranPart]

/-- Witness of C15 on a stage that registers callback `1` and then callback `2`, run
without a next step on a new request: the slot holds `2`, and only callback `2` is
invoked. -/
theorem C15_last_registration_wins_witness :
    (helper (.func registersTwice) = .ok (registersTwice, registersTwice.ins) ∧
      Use (.func registersTwice) =
        .ok (fun next => useServe registersTwice registersTwice.ins next) ∧
      registersTwice.Call (useArgs registersTwice.ins exampleWriter 0 State.fresh) =
        .ok ([Act.after (some 1), Act.after (some 2), Act.emit 4], []) ∧
      afterNextType ∈ registersTwice.ins) ∧
    (localsAfter (useArgs registersTwice.ins exampleWriter 0 State.fresh)
      [Act.after (some 1), Act.after (some 2), Act.emit 4]).after = some 2 ∧
    (∃ s2, useServe registersTwice registersTwice.ins none exampleWriter 0 State.fresh =
        .ok s2 ∧
      s2.trace = [Event.call 52 [afterNextType] [Val.after], Event.emit 4, Event.ret 52 [],
        Event.ran 52 2]) :=
  ⟨⟨rfl, rfl, rfl, by decide⟩,
    (C15_last_registration_wins (.func registersTwice) registersTwice registersTwice.ins
      (fun next => useServe registersTwice registersTwice.ins next) rfl rfl exampleWriter 0
      State.fresh [Act.after (some 1), Act.after (some 2), Act.emit 4] [] rfl).1
      [Act.after (some 1)] (some 2) [Act.emit 4] rfl
      (fun g2 hg => by simp at hg) (by decide),
    ⟨_, rfl, rfl⟩⟩

/-! ### Stores reached by stage invocations -/

theorem populated_inv (m : Store) (hm : m.Populated) :
    ∀ t v, m t = some v → v.type = t ∧ t.builtin = false := by
  induction hm with
  | empty =>
    intro t v h
    cases h
  | use m fOut _ ih =>
    intro t v h
    cases hb : t.builtin with
    | true =>
      rw [usePublish_builtin m fOut t hb] at h
      have := (ih t v h).2
      rw [hb] at this
      cases this
    | false =>
      rw [usePublish_lookup m fOut t hb] at h
      cases hl : (fOut.filter (fun x => decide (x.type = t))).getLast? with
      | none =>
        rw [hl] at h
        exact ⟨(ih t v h).1, rfl⟩
      | some x =>
        rw [hl] at h
        simp only [Option.some.injEq] at h
        subst h
        have hmem := List.mem_of_getLast?_eq_some hl
        rw [List.mem_filter] at hmem
        exact ⟨by simpa using hmem.2, rfl⟩
  | handler m fOut _ ih =>
    intro t v h
    rw [handlerPublish_eq] at h
    cases hb : t.builtin with
    | true =>
      rw [usePublish_builtin m fOut t hb] at h
      have := (ih t v h).2
      rw [hb] at this
      cases this
    | false =>
      rw [usePublish_lookup m fOut t hb] at h
      cases hl : (fOut.filter (fun x => decide (x.type = t))).getLast? with
      | none =>
        rw [hl] at h
        exact ⟨(ih t v h).1, rfl⟩
      | some x =>
        rw [hl] at h
        simp only [Option.some.injEq] at h
        subst h
        have hmem := List.mem_of_getLast?_eq_some hl
        rw [List.mem_filter] at hmem
        exact ⟨by simpa using hmem.2, rfl⟩

theorem populated_wellTyped (m : Store) (hm : m.Populated) : m.WellTyped :=
  fun t v h => (populated_inv m hm t v h).1

theorem handlerServe_ok_store (c : Callable) (ins : List Ty) (w : Writer) (r : Request)
    (s s2 : State) (h : handlerServe c ins w r s = .ok s2) :
    ∃ fOut, storeOf r s2 = handlerPublish (storeOf r s) fOut := by
  cases hcall : c.Call (handlerArgs ins w r s) with
  | error e =>
    rw [handlerServe_of_fault c ins w r s e hcall] at h
    cases h
  | ok p =>
    obtain ⟨acts, fOut⟩ := p
    rw [handlerServe_of_call c ins w r s acts fOut hcall] at h
    simp only [Except.ok.injEq] at h
    exact ⟨fOut, by rw [← h, storeOf_update]⟩

theorem run_populated (w : Writer) (r : Request) (lc : Option Callable) (cs : List Callable)
    (s s2 : State) (hrun : serve (compile (stagesOf cs) (terminalOf lc)) w r s = .ok s2)
    (hpop : (storeOf r s).Populated) : (storeOf r s2).Populated := by
  induction cs generalizing s s2 with
  | nil =>
    cases lc with
    | none =>
      simp only [stagesOf, terminalOf, List.map_nil, compile, Option.map_none', serve,
        Except.ok.injEq] at hrun
      rw [← hrun]
      exact hpop
    | some c =>
      have hrun2 : handlerServe c c.ins w r s = .ok s2 := hrun
      obtain ⟨fOut, hst⟩ := handlerServe_ok_store c c.ins w r s s2 hrun2
      rw [hst]
      exact Store.Populated.handler _ fOut hpop
  | cons c cs ih =>
    have hrun2 : useServe c c.ins (compile (stagesOf cs) (terminalOf lc)) w r s = .ok s2 := hrun
    obtain ⟨acts, fOut, s3, _, hor, hs2⟩ := useServe_ok_inv c c.ins _ w r s s2 hrun2
    have hpub : (storeOf r (usePublished c c.ins w r s acts fOut)).Populated := by
      simp only [usePublished]
      rw [storeOf_update]
      exact Store.Populated.use _ fOut hpop
    have hs3 : (storeOf r s3).Populated := by
      rcases hor with ⟨_, h3⟩ | ⟨_, h3⟩
      · rw [h3]
        exact hpub
      · exact ih _ _ h3 hpub
    rw [hs2]
    cases (localsAfter (useArgs c.ins w r s) acts).after with
    | none => exact hs3
    | some cb =>
      show (storeOf r (s3.logRan c.name cb)).Populated
      rw [storeOf_logRan]
      exact hs3

theorem reached_populated (r : Request) (s : State) (h : Reached r s) :
    (storeOf r s).Populated := by
  induction h with
  | start s hs =>
    rw [hs]
    exact Store.Populated.empty
  | run fs last h w s s2 _ hchain hrun ih =>
    obtain ⟨cs, lc, _, _, _, _, hh⟩ := chain_ok fs last h hchain
    subst hh
    exact run_populated w r lc cs s s2 hrun ih

theorem exampleAfterStage1_reached : Reached 0 exampleAfterStage1 := by
  refine Reached.run [Iface.func exampleStage1] none _ exampleWriter State.fresh _
    (Reached.start _ rfl) rfl ?_
  show useServe exampleStage1 exampleStage1.ins none exampleWriter 0 State.fresh = _
  rw [useServe_of_call exampleStage1 exampleStage1.ins none exampleWriter 0 State.fresh []
    [Val.data methodType 71, Val.data urlType 85] rfl]
  rfl

/-- C16: a terminal stage offers no stop-chain and no after-next capability.  On a
request whose store was populated only by stage invocations starting from an empty
store, a parameter of type `StopChain` or `AfterNext` of a function value passed to
`Handler` receives the zero value of its type (a nil function); none of the arguments
is a working capability, and the function value is called with these arguments (an
ordinary function value returns from that call). -/
theorem C16_terminal_has_no_capability (f : Iface) (c : Callable) (ins : List Ty)
    (h : HandlerFunc) (hf : helper f = .ok (c, ins)) (hH : Handler f = .ok h)
    (w : Writer) (r : Request) (s : State) (hreach : Reached r s)
    (i : Nat) (t : Ty) (hi : ins[i]? = some t)
    (ht : t = stopChainType ∨ t = afterNextType) :
    (handlerArgs ins w r s)[i]? = some (Zero t) ∧
      Zero t ≠ Val.stop ∧ Zero t ≠ Val.after ∧
      Val.stop ∉ handlerArgs ins w r s ∧ Val.after ∉ handlerArgs ins w r s ∧
      (∀ s2, h w r s = .ok s2 → Event.call c.name ins (handlerArgs ins w r s) ∈ s2.trace) ∧
      (c.plain = true → ∃ s2, h w r s = .ok s2) := by
  obtain ⟨_, hins, _⟩ := helper_accepted f c ins hf
  rw [Handler_of_helper f c ins h hf hH]
  have hpop := reached_populated r s hreach
  have hinv := populated_inv _ hpop
  have hnone : storeOf r s t = none := by
    cases hm : storeOf r s t with
    | none => rfl
    | some v =>
      have := (hinv t v hm).2
      rcases ht with ht | ht <;> subst ht <;> simp [Ty.builtin] at this
  have hresolve_ne : ∀ t2 : Ty, handlerResolve w r (storeOf r s) t2 ≠ Val.stop ∧
      handlerResolve w r (storeOf r s) t2 ≠ Val.after := by
    intro t2
    unfold handlerResolve
    split_ifs with h1 h2
    · exact ⟨fun h => (by cases h), fun h => (by cases h)⟩
    · exact ⟨fun h => (by cases h), fun h => (by cases h)⟩
    · cases hm : storeOf r s t2 with
      | none => exact ⟨fun h => (by cases h), fun h => (by cases h)⟩
      | some v =>
        obtain ⟨hty, hb⟩ := hinv t2 v hm
        constructor
        · intro hv
          simp only at hv
          subst hv
          rw [← hty] at hb
          simp [Val.type, Ty.builtin] at hb
        · intro hv
          simp only at hv
          subst hv
          rw [← hty] at hb
          simp [Val.type, Ty.builtin] at hb
  refine ⟨?_, fun h => (by cases h), fun h => (by cases h), ?_, ?_, ?_, ?_⟩
  · simp only [handlerArgs, List.getElem?_map, hi, Option.map_some']
    rw [handlerResolve_other w r _ t (by rcases ht with ht | ht <;> subst ht <;> decide)
      (by rcases ht with ht | ht <;> subst ht <;> decide)]
    simp [orZero, hnone]
  · intro hmem
    obtain ⟨t2, _, h2⟩ := List.mem_map.mp hmem
    exact (hresolve_ne t2).1 h2
  · intro hmem
    obtain ⟨t2, _, h2⟩ := List.mem_map.mp hmem
    exact (hresolve_ne t2).2 h2
  · intro s2 hs2
    exact handlerServe_trace c ins w r s s2 hs2
  · intro hplain
    subst hins
    have hcall : c.Call (handlerArgs c.ins w r s) =
        .ok ((c.body (handlerArgs c.ins w r s)).acts, c.results (handlerArgs c.ins w r s)) :=
      Call_resolved c hplain _ (handlerResolve_assignable w r _ (populated_wellTyped _ hpop))
    exact ⟨_, handlerServe_of_call c c.ins w r s _ _ hcall⟩

/-- Witness of C16 on `func(stop injector.StopChain, after injector.AfterNext)` passed to
`Handler`, run on the example request after its first stage. -/
theorem C16_terminal_has_no_capability_witness :
    (helper (.func wantsCapabilities) = .ok (wantsCapabilities, wantsCapabilities.ins) ∧
      Handler (.func wantsCapabilities) =
        .ok (handlerServe wantsCapabilities wantsCapabilities.ins) ∧
      Reached 0 exampleAfterStage1 ∧
      wantsCapabilities.ins[0]? = some stopChainType) ∧
    handlerArgs wantsCapabilities.ins exampleWriter 0 exampleAfterStage1 =
      [Val.data stopChainType 0, Val.data afterNextType 0] ∧
    (handlerArgs wantsCapabilities.ins exampleWriter 0 exampleAfterStage1)[0]? =
      some (Zero stopChainType) ∧
    ∃ s2, handlerServe wantsCapabilities wantsCapabilities.ins exampleWriter 0
      exampleAfterStage1 = .ok s2 :=
  ⟨⟨rfl, rfl, exampleAfterStage1_reached, rfl⟩,
    rfl,
    (C16_terminal_has_no_capability (.func wantsCapabilities) wantsCapabilities
      wantsCapabilities.ins (handlerServe wantsCapabilities wantsCapabilities.ins) rfl rfl
      exampleWriter 0 exampleAfterStage1 exampleAfterStage1_reached
      0 stopChainType rfl (Or.inl rfl)).1,
    (C16_terminal_has_no_capability (.func wantsCapabilities) wantsCapabilities
      wantsCapabilities.ins (handlerServe wantsCapabilities wantsCapabilities.ins) rfl rfl
      exampleWriter 0 exampleAfterStage1 exampleAfterStage1_reached
      0 stopChainType rfl (Or.inl rfl)).2.2.2.2.2.2 rfl⟩

/-! ### The lazily created store and the frame of publication -/

/-- C17: the store of a request is created lazily and then reused.  On a request with
nothing attached `getValuesMap` returns an empty store and attaches it; on a request
with a store attached it returns that store and changes nothing; in both cases the
returned store is the one attached afterwards, so a second call returns the same store
and changes nothing, other requests and the log are untouched, and the store a stage
has published into is the store the next stage obtains. -/
theorem C17_getValuesMap_lazy (r : Request) (s : State) :
    (s.kv r = none →
      getValuesMap r s =
        ((fun _ => none), { s with kv := Function.update s.kv r (some (fun _ => none)) })) ∧
    (∀ m, s.kv r = some m → getValuesMap r s = (m, s)) ∧
    (getValuesMap r s).2.kv r = some (getValuesMap r s).1 ∧
    getValuesMap r (getValuesMap r s).2 = ((getValuesMap r s).1, (getValuesMap r s).2) ∧
    (∀ r2, r2 ≠ r → (getValuesMap r s).2.kv r2 = s.kv r2) ∧
    (getValuesMap r s).2.trace = s.trace ∧
    (∀ (c : Callable) (ins : List Ty) (w : Writer) (acts : List Act) (fOut : List Val),
      getValuesMap r (usePublished c ins w r s acts fOut) =
        (usePublish (getValuesMap r s).1 fOut, usePublished c ins w r s acts fOut)) ∧
    (∀ (c : Callable) (ins : List Ty) (w : Writer) (s2 : State),
      handlerServe c ins w r s = .ok s2 →
      ∃ fOut, getValuesMap r s2 = (handlerPublish (getValuesMap r s).1 fOut, s2)) := by
  refine ⟨?_, ?_, ?_, ?_, ?_, ?_, ?_, ?_⟩
  · intro h
    simp [getValuesMap, h]
  · intro m h
    simp [getValuesMap, h]
  · unfold getValuesMap
    cases h : s.kv r <;> simp [h]
  · unfold getValuesMap
    cases h : s.kv r <;> simp [h]
  · intro r2 hr2
    unfold getValuesMap
    cases h : s.kv r with
    | none => simp [Function.update_noteq hr2]
    | some m => rfl
  · exact getValuesMap_trace r s
  · intro c ins w acts fOut
    simp [getValuesMap, usePublished, storeOf]
  · intro c ins w s2 hs2
    obtain ⟨acts, fOut, _, hs⟩ := handlerServe_ok_frame c ins w r s s2 hs2
    refine ⟨fOut, ?_⟩
    rw [hs]
    simp [getValuesMap, storeOf]

/-- Witness of C17 on a new request: the first call creates and attaches the empty
store, the second returns it again. -/
theorem C17_getValuesMap_lazy_witness :
    State.fresh.kv 0 = none ∧
    getValuesMap 0 State.fresh =
      ((fun _ => none),
        { State.fresh with kv := Function.update State.fresh.kv 0 (some (fun _ => none)) }) ∧
    getValuesMap 0 (getValuesMap 0 State.fresh).2 =
      ((getValuesMap 0 State.fresh).1, (getValuesMap 0 State.fresh).2) :=
  ⟨rfl, (C17_getValuesMap_lazy 0 State.fresh).1 rfl,
    (C17_getValuesMap_lazy 0 State.fresh).2.2.2.1⟩

theorem usePublish_frame (m : Store) (fOut : List Val) (t : Ty)
    (h : ∀ v ∈ fOut, v.type ≠ t) : usePublish m fOut t = m t := by
  induction fOut generalizing m with
  | nil => rfl
  | cons v vs ih =>
    rw [usePublish_cons, ih _ (fun x hx => h x (List.mem_cons_of_mem _ hx))]
    split_ifs
    · rfl
    · exact Function.update_noteq (fun e => h v (List.mem_cons_self _ _) e.symm) _ _

theorem useServe_none (c : Callable) (ins : List Ty) (w : Writer) (r : Request) (s : State)
    (acts : List Act) (fOut : List Val)
    (hcall : c.Call (useArgs ins w r s) = .ok (acts, fOut)) :
    ∃ s2, useServe c ins none w r s = .ok s2 ∧
      s2.kv = (usePublished c ins w r s acts fOut).kv ∧
      s2.trace = (usePublished c ins w r s acts fOut).trace ++
        ranPart c.name (localsAfter (useArgs ins w r s) acts).after := by
  rw [useServe_run c ins none w r s acts fOut hcall]
  have hserve : serve none w r (usePublished c ins w r s acts fOut) =
      .ok (usePublished c ins w r s acts fOut) := rfl
  rw [hserve, ite_self]
  cases (localsAfter (useArgs ins w r s) acts).after with
  | none => exact ⟨_, rfl, rfl, by simp [ranPart]⟩
  | some cb => exact ⟨_, rfl, rfl, rfl⟩

theorem storeOf_of_kv (r : Request) (s s2 : State) (h : s2.kv = s.kv) :
    storeOf r s2 = storeOf r s := by
  unfold storeOf getValuesMap
  rw [h]
  cases s.kv r <;> rfl

/-- C18: the frame of publication.  In one stage invocation (a chainable stage without
next step, or a terminal stage), the entry of the store for every type that is not the
type of a returned value is the same afterwards as before (present with the same value,
or absent): resolving the parameters, the zero-value fallback included, writes nothing,
so a body that returns nothing leaves the store as it was; what is attached to other
requests is untouched. -/
theorem C18_publication_frame (f : Iface) (c : Callable) (ins : List Ty)
    (stage : Option HandlerFunc → HandlerFunc) (h : HandlerFunc)
    (hf : helper f = .ok (c, ins)) (hUse : Use f = .ok stage) (hH : Handler f = .ok h)
    (w : Writer) (r : Request) (s : State) :
    (∀ (acts : List Act) (fOut : List Val),
      c.Call (useArgs ins w r s) = .ok (acts, fOut) →
      ∃ s2, stage none w r s = .ok s2 ∧
        (∀ t, (∀ v ∈ fOut, v.type ≠ t) → storeOf r s2 t = storeOf r s t) ∧
        (fOut = [] → storeOf r s2 = storeOf r s) ∧
        (∀ r2, r2 ≠ r → s2.kv r2 = s.kv r2)) ∧
    (∀ (acts : List Act) (fOut : List Val),
      c.Call (handlerArgs ins w r s) = .ok (acts, fOut) →
      ∃ s2, h w r s = .ok s2 ∧
        (∀ t, (∀ v ∈ fOut, v.type ≠ t) → storeOf r s2 t = storeOf r s t) ∧
        (fOut = [] → storeOf r s2 = storeOf r s) ∧
        (∀ r2, r2 ≠ r → s2.kv r2 = s.kv r2)) := by
  rw [Use_of_helper f c ins stage hf hUse, Handler_of_helper f c ins h hf hH]
  constructor
  · intro acts fOut hcall
    obtain ⟨s2, hs2, hkv, _⟩ := useServe_none c ins w r s acts fOut hcall
    have hst : storeOf r s2 = usePublish (storeOf r s) fOut := by
      rw [storeOf_of_kv r _ s2 hkv]
      simp only [usePublished]
      rw [storeOf_update]
    refine ⟨s2, hs2, ?_, ?_, ?_⟩
    · intro t ht
      rw [hst, usePublish_frame _ fOut t ht]
    · intro hnil
      rw [hst, hnil]
      rfl
    · intro r2 hr2
      rw [hkv]
      simp only [usePublished]
      exact Function.update_noteq hr2 _ _
  · intro acts fOut hcall
    refine ⟨_, handlerServe_of_call c ins w r s acts fOut hcall, ?_, ?_, ?_⟩
    · intro t ht
      rw [storeOf_update, handlerPublish_eq, usePublish_frame _ fOut t ht]
    · intro hnil
      rw [storeOf_update, hnil]
      rfl
    · intro r2 hr2
      exact Function.update_noteq hr2 _ _

/-- Witness of C18 on `func(a int)`, which returns nothing, run as a terminal stage on
the example request after its first stage: the store is as the first stage left it. -/
theorem C18_publication_frame_witness :
    (helper (.func takesInt) = .ok (takesInt, takesInt.ins) ∧
      Use (.func takesInt) = .ok (fun next => useServe takesInt takesInt.ins next) ∧
      Handler (.func takesInt) = .ok (handlerServe takesInt takesInt.ins) ∧
      takesInt.Call (handlerArgs takesInt.ins exampleWriter 0 exampleAfterStage1) =
        .ok ([], [])) ∧
    ∃ s2, handlerServe takesInt takesInt.ins exampleWriter 0 exampleAfterStage1 = .ok s2 ∧
      (∀ t, (∀ v ∈ ([] : List Val), v.type ≠ t) →
        storeOf 0 s2 t = storeOf 0 exampleAfterStage1 t) ∧
      (([] : List Val) = [] → storeOf 0 s2 = storeOf 0 exampleAfterStage1) ∧
      (∀ r2, r2 ≠ 0 → s2.kv r2 = exampleAfterStage1.kv r2) :=
  ⟨⟨rfl, rfl, rfl, rfl⟩,
    (C18_publication_frame (.func takesInt) takesInt takesInt.ins
      (fun next => useServe takesInt takesInt.ins next)
      (handlerServe takesInt takesInt.ins) rfl rfl rfl exampleWriter 0
      exampleAfterStage1).2 [] [] rfl⟩

/-! ### The typing invariant of the store -/

theorem useResolve_type (w : Writer) (r : Request) (m : Store) (hwt : m.WellTyped)
    (t : Ty) (ht : t ≠ responseType) : (useResolve w r m t).type = t := by
  unfold useResolve
  split_ifs with h1 h2 h3 h4
  · exact absurd h1 ht
  · subst h2
    rfl
  · subst h3
    rfl
  · subst h4
    rfl
  · exact orZero_type m hwt t

theorem handlerResolve_type (w : Writer) (r : Request) (m : Store) (hwt : m.WellTyped)
    (t : Ty) (ht : t ≠ responseType) : (handlerResolve w r m t).type = t := by
  unfold handlerResolve
  split_ifs with h1 h2
  · exact absurd h1 ht
  · subst h2
    rfl
  · exact orZero_type m hwt t

/-- The typing invariant of the store for ordinary function values.  When each entry of
the store is keyed by the type of the value it holds, a stage (chainable or terminal)
resolves exactly one argument per declared parameter, each of the declared type (for
the response writer: assignable to it); for a function value that is neither nil nor
variadic the reflective call succeeds, and the store after publication is again keyed
by value type, also at the end of a whole chain of such function values.  Every store
reached from an empty one by stage invocations is keyed by value type. -/
theorem store_typing (f : Iface) (c : Callable) (ins : List Ty)
    (stage : Option HandlerFunc → HandlerFunc) (h : HandlerFunc)
    (hf : helper f = .ok (c, ins)) (hUse : Use f = .ok stage) (hH : Handler f = .ok h)
    (w : Writer) (r : Request) (s : State) (hwt : (storeOf r s).WellTyped) :
    ((useArgs ins w r s).length = c.typ.NumIn ∧
      (handlerArgs ins w r s).length = c.typ.NumIn) ∧
    (∀ i, i < c.typ.NumIn →
      ∃ a b, (useArgs ins w r s)[i]? = some a ∧ (handlerArgs ins w r s)[i]? = some b ∧
        (a.type).AssignableTo (c.typ.In i) = true ∧
        (b.type).AssignableTo (c.typ.In i) = true ∧
        (c.typ.In i ≠ responseType → a.type = c.typ.In i ∧ b.type = c.typ.In i)) ∧
    (c.plain = true →
      (∃ acts fOut, c.Call (useArgs ins w r s) = .ok (acts, fOut) ∧
        (storeOf r (usePublished c ins w r s acts fOut)).WellTyped ∧
        ∃ s2, stage none w r s = .ok s2 ∧ (storeOf r s2).WellTyped) ∧
      (∃ s2, h w r s = .ok s2 ∧ (storeOf r s2).WellTyped)) ∧
    (∀ (fs : List Iface) (last : Option Iface) (hc : Option HandlerFunc),
      chain fs last = .ok hc → (∀ g ∈ fs, g.plain = true) → (∀ g ∈ last, g.plain = true) →
      ∃ s2, serve hc w r s = .ok s2 ∧ (storeOf r s2).WellTyped) ∧
    (∀ (fs : List Iface) (last : Option Iface) (hc : Option HandlerFunc) (s2 : State),
      chain fs last = .ok hc → serve hc w r s = .ok s2 → (storeOf r s2).WellTyped) ∧
    (∀ s1, Reached r s1 → (storeOf r s1).WellTyped) := by
  obtain ⟨_, hins, hacc⟩ := helper_accepted f c ins hf
  subst hins
  rw [Use_of_helper f c c.ins stage hf hUse, Handler_of_helper f c c.ins h hf hH]
  refine ⟨⟨by simp [useArgs, Callable.ins], by simp [handlerArgs, Callable.ins]⟩,
    ?_, ?_, ?_, ?_, ?_⟩
  · intro i hi
    have hget : c.ins[i]? = some (c.typ.In i) := by
      simp [Callable.ins, List.getElem?_map, List.getElem?_range hi]
    refine ⟨useResolve w r (storeOf r s) (c.typ.In i),
      handlerResolve w r (storeOf r s) (c.typ.In i), ?_, ?_,
      useResolve_assignable w r _ hwt _, handlerResolve_assignable w r _ hwt _, ?_⟩
    · simp [useArgs, List.getElem?_map, hget]
    · simp [handlerArgs, List.getElem?_map, hget]
    · intro hne
      exact ⟨useResolve_type w r _ hwt _ hne, handlerResolve_type w r _ hwt _ hne⟩
  · intro hplain
    constructor
    · have hcall : c.Call (useArgs c.ins w r s) =
          .ok ((c.body (useArgs c.ins w r s)).acts, c.results (useArgs c.ins w r s)) :=
        Call_resolved c hplain _ (useResolve_assignable w r _ hwt)
      have hpub : (storeOf r (usePublished c c.ins w r s (c.body (useArgs c.ins w r s)).acts
          (c.results (useArgs c.ins w r s)))).WellTyped := by
        simp only [usePublished]
        rw [storeOf_update]
        exact usePublish_wellTyped _ hwt _
      obtain ⟨s2, hs2, hkv, _⟩ := useServe_none c c.ins w r s _ _ hcall
      refine ⟨_, _, hcall, hpub, s2, hs2, ?_⟩
      rw [storeOf_of_kv r _ s2 hkv]
      exact hpub
    · have hcall : c.Call (handlerArgs c.ins w r s) =
          .ok ((c.body (handlerArgs c.ins w r s)).acts, c.results (handlerArgs c.ins w r s)) :=
        Call_resolved c hplain _ (handlerResolve_assignable w r _ hwt)
      refine ⟨_, handlerServe_of_call c c.ins w r s _ _ hcall, ?_⟩
      rw [storeOf_update, handlerPublish_eq]
      exact usePublish_wellTyped _ hwt _
  · intro fs last hc hchain hfs hlast
    exact chain_runs fs last hc hchain hfs hlast w r s hwt
  · intro fs last hc s2 hchain hrun
    obtain ⟨cs, lc, _, _, hcs, hlc, hh⟩ := chain_ok fs last hc hchain
    subst hh
    exact run_wellTyped_of_ok w r lc cs s s2 hrun hwt
  · intro s1 hs1
    exact populated_wellTyped _ (reached_populated r s1 hs1)

/-- C4: a nil function value is not refused.  The guard `f == nil` of `helper` compares
the interface value, so the nil function value `var f func(int)`, whose parameter types
and return types are pairwise distinct, passes it although the panic "injector: f can't
be nil" is meant for it: `helper`, `Use` and `Handler` succeed, while the nil interface
is refused.  The stage then panics in `reflect.Value.Call` ("call of nil function") on
every request, whatever its next step, and a function value that differs only in not
being nil, with the same type, is accepted in the same way. -/
theorem C4_nil_function_accepted :
    nilIntFunc.isNil = true ∧
    helper Iface.nil = .error Fault.nilFunc ∧
    helper (.func nilIntFunc) = .ok (nilIntFunc, [Ty.other 5]) ∧
    Use (.func nilIntFunc) = .ok (fun next => useServe nilIntFunc [Ty.other 5] next) ∧
    Handler (.func nilIntFunc) = .ok (handlerServe nilIntFunc [Ty.other 5]) ∧
    (∀ next w r s, useServe nilIntFunc [Ty.other 5] next w r s = .error Fault.nilCall) ∧
    (∀ w r s, handlerServe nilIntFunc [Ty.other 5] w r s = .error Fault.nilCall) ∧
    Fault.message Fault.nilCall = "reflect.Value.Call: call of nil function" ∧
    takesInt.typ = nilIntFunc.typ ∧ takesInt.isNil = false ∧
    helper (.func takesInt) = .ok (takesInt, [Ty.other 5]) :=
  ⟨rfl, rfl, rfl, rfl, rfl,
    fun next w r s => useServe_of_fault nilIntFunc _ next w r s _ (Call_nil nilIntFunc rfl _),
    fun w r s => handlerServe_of_fault nilIntFunc _ w r s _ (Call_nil nilIntFunc rfl _),
    rfl, rfl, rfl, rfl⟩

/-- C7: a missing dependency of a variadic function value is an error.  `helper`, `Use`
and `Handler` accept `func(xs ...int)`; its parameter type `[]int` is not built-in and
has no entry in the store of a new request, so the stage resolves the zero value of
`[]int` for it.  `reflect.Value.Call` takes the arguments of a variadic function one by
one and panics ("cannot use []int as type int"): the function value is not invoked and
the stage invocation faults, in a chainable stage whatever its next step and in a
terminal stage, for every writer and request. -/
theorem C7_variadic_stage_faults :
    variadicInts.isNil = false ∧ variadicInts.typ.IsVariadic = true ∧
    helper (.func variadicInts) = .ok (variadicInts, [Ty.slice (Ty.other 5)]) ∧
    Use (.func variadicInts) =
      .ok (fun next => useServe variadicInts [Ty.slice (Ty.other 5)] next) ∧
    Handler (.func variadicInts) = .ok (handlerServe variadicInts [Ty.slice (Ty.other 5)]) ∧
    (Ty.slice (Ty.other 5)).builtin = false ∧
    (∀ r, storeOf r State.fresh (Ty.slice (Ty.other 5)) = none) ∧
    (∀ w r, useArgs [Ty.slice (Ty.other 5)] w r State.fresh = [Zero (Ty.slice (Ty.other 5))] ∧
      handlerArgs [Ty.slice (Ty.other 5)] w r State.fresh = [Zero (Ty.slice (Ty.other 5))]) ∧
    (∀ next w r, useServe variadicInts [Ty.slice (Ty.other 5)] next w r State.fresh =
      .error Fault.reflectCall) ∧
    (∀ w r, handlerServe variadicInts [Ty.slice (Ty.other 5)] w r State.fresh =
      .error Fault.reflectCall) :=
  ⟨rfl, rfl, rfl, rfl, rfl, rfl, fun _ => rfl, fun _ _ => ⟨rfl, rfl⟩,
    fun next w r => useServe_of_fault variadicInts _ next w r State.fresh _ rfl,
    fun w r => handlerServe_of_fault variadicInts _ w r State.fresh _ rfl⟩

/-- C19: the reflective call of a variadic function value fails on an argument type
mismatch although the store is keyed by value type.  On a new request (an empty store) a
stage of `func(xs ...int)` passes exactly one argument for the one declared parameter,
and that argument has the declared parameter type `[]int`; `reflect.Value.Call` packs
the arguments of a variadic function into the slice itself, requires each to be
assignable to the element type `int`, and panics, in `Use` and in `Handler`.  The same
argument list is accepted by a function value `func(xs []int)` that is not variadic. -/
theorem C19_variadic_call_mismatch :
    helper (.func variadicInts) = .ok (variadicInts, variadicInts.ins) ∧
    (storeOf 0 State.fresh).WellTyped ∧ Reached 0 State.fresh ∧
    (useArgs variadicInts.ins exampleWriter 0 State.fresh).length = variadicInts.typ.NumIn ∧
    (handlerArgs variadicInts.ins exampleWriter 0 State.fresh).length =
      variadicInts.typ.NumIn ∧
    ((useArgs variadicInts.ins exampleWriter 0 State.fresh)[0]?).map Val.type =
      some (variadicInts.typ.In 0) ∧
    ((handlerArgs variadicInts.ins exampleWriter 0 State.fresh)[0]?).map Val.type =
      some (variadicInts.typ.In 0) ∧
    (variadicInts.typ.In 0).AssignableTo (Ty.other 5) = false ∧
    variadicInts.Call (useArgs variadicInts.ins exampleWriter 0 State.fresh) =
      .error Fault.reflectCall ∧
    variadicInts.Call (handlerArgs variadicInts.ins exampleWriter 0 State.fresh) =
      .error Fault.reflectCall ∧
    (∀ next, useServe variadicInts variadicInts.ins next exampleWriter 0 State.fresh =
      .error Fault.reflectCall) ∧
    handlerServe variadicInts variadicInts.ins exampleWriter 0 State.fresh =
      .error Fault.reflectCall ∧
    (∃ p, takesIntSlice.Call (useArgs variadicInts.ins exampleWriter 0 State.fresh) = .ok p) :=
  ⟨rfl, wellTyped_fresh 0, Reached.start _ rfl, rfl, rfl, rfl, rfl, rfl, rfl, rfl,
    fun next => useServe_of_fault variadicInts _ next exampleWriter 0 State.fresh _ rfl,
    handlerServe_of_fault variadicInts _ exampleWriter 0 State.fresh _ rfl,
    ⟨_, rfl⟩⟩

end Injector
